import Mathlib

/-!
# Verification of the HLB front end and code generator

This development embeds the HLB code generator (src/codegen/codegen.go) and the
parts of the parser CST it consumes (the parser package) in Lean 4, and settles
a list of claims about the natural-language specification against the embedded
code.

Conventions of the embedding:

* Go machine integers are modelled as Lean `Int` (no arithmetic in the claims
  overflows).
* Fallible Go code returns `Except`. Go runtime panics (nil dereference, index
  out of range, explicit panic calls) are modelled by the distinguished error
  constructor `EmitErr.goPanic`, so that "returns an error" and "crashes" stay
  distinguishable, as the spec distinguishes them.
* The evaluator is mutually recursive through user-defined functions and can
  diverge on recursive source programs (the spec notes the source does not
  detect infinite recursion), so every evaluator function takes a fuel
  parameter; exhausting fuel yields the distinguished `EmitErr.outOfFuel`.
* Go callback functions (the alias callback) are modelled by event lists: each
  evaluator function returns the list of (CallStmt, value) invocations it would
  perform on its alias callback; call sites that pass the no-op callback in Go
  discard the sub-evaluation events (`censorAliases`).
* The mutable `CodeGenInfo` (locals table, debug hook) is modelled by explicit
  state threading (`EmitState`); the debug hook is the default no-op debugger,
  recorded as a log so that hook invocations stay observable.
* `identity.NewID` (an opaque fresh-id generator from a vendored library) is
  modelled by a counter in the state; identifiers are `Nat`.
-/

set_option maxHeartbeats 1000000

namespace Hlb

/-- Principal object types of HLB (the part of `parser.ObjType` before `::`). -/
inductive PrimType where
  | str
  | int
  | bool
  | fs
  | option
deriving DecidableEq, Repr

/-- `parser.ObjType`: in Go this is a string such as "fs" or "option::run";
here it is structured as a principal type plus an optional sub-kind.
`Type.Type()` in Go corresponds to the `principal` field, `Type.SubType()` to
the `sub` field. -/
structure ObjType where
  principal : PrimType
  sub : Option String := none
deriving DecidableEq, Repr

/-- `parser.BasicLit`: a literal of basic type. The Go struct has optional
fields Str, Decimal, Numeric, Bool; exactly one is set in a parsed program, so
it is a sum here. `numeric` corresponds to `parser.NumericLit` (value plus
base). -/
inductive BasicLit where
  | str (s : String)
  | decimal (v : Int)
  | numeric (v : Int) (base : Nat)
  | bool (b : Bool)
deriving DecidableEq, Repr

mutual

/-- `parser.Expr`: identifier, basic literal, or block literal. -/
inductive Expr where
  | ident (name : String)
  | basicLit (lit : BasicLit)
  | funcLit (lit : FuncLit)
deriving Repr

/-- `parser.FuncLit`: a typed block literal. -/
inductive FuncLit where
  | mk (typ : ObjType) (body : List Stmt)
deriving Repr

/-- `parser.Stmt`: a call statement or trivia (Newline / CommentGroup). -/
inductive Stmt where
  | call (c : CallStmt)
  | newline
  | doc
deriving Repr

/-- `parser.CallStmt`: function identifier, argument expressions, optional
`with` clause, optional `as` alias (the alias name). -/
inductive CallStmt where
  | mk (func : String) (args : List Expr) (withOpt : Option WithOpt)
       (aliasName : Option String)
deriving Repr

/-- `parser.WithOpt`: either an identifier referencing a named options value or
an inline options block literal. -/
inductive WithOpt where
  | ident (name : String)
  | funcLit (lit : FuncLit)
deriving Repr

end

def FuncLit.typ : FuncLit → ObjType
  | .mk t _ => t

def FuncLit.body : FuncLit → List Stmt
  | .mk _ b => b

def CallStmt.func : CallStmt → String
  | .mk f _ _ _ => f

def CallStmt.args : CallStmt → List Expr
  | .mk _ a _ _ => a

def CallStmt.withOpt : CallStmt → Option WithOpt
  | .mk _ _ w _ => w

def CallStmt.aliasName : CallStmt → Option String
  | .mk _ _ _ a => a

/-- `parser.Field`: a parameter declaration (variadic marker, type, name). -/
structure Field where
  variadic : Bool
  typ : ObjType
  name : String
deriving Repr

/-- `parser.FuncDecl`: return type, name, parameters, optional body.
The Go struct also carries positions, a method receiver, a scope and docs; the
scope is reconstructed at call time (the binder builds it as a parameter frame
over the file scope). -/
structure FuncDecl where
  typ : ObjType
  name : String
  params : List Field
  body : Option (List Stmt)
deriving Repr

/-- `parser.BlockStmt.NonEmptyStmts`: the statements of a block with trivia
(newlines, comment groups) filtered out; on a nil block it returns nil. -/
def NonEmptyStmts : Option (List Stmt) → List Stmt
  | none => []
  | some l => l.filter fun s => match s with
      | .call _ => true
      | _ => false

/-- `pb.NetMode`: enumerated network modes. Note that the source maps the HLB
string "node" to `pb.NetMode_NONE`. -/
inductive NetMode where
  | unset
  | host
  | none
deriving DecidableEq, Repr

/-- `pb.SecurityMode`: enumerated security modes. -/
inductive SecurityMode where
  | sandbox
  | insecure
deriving DecidableEq, Repr

/-- `llb.CacheMountSharingMode`: cache mount sharing modes (Shared, Private,
Locked; the middle one is spelled out because `private` is reserved in Lean). -/
inductive CacheSharingMode where
  | shared
  | privateMode
  | locked
deriving DecidableEq, Repr

/-- `llb.CopyInfo`: the struct of copy flags mutated by emitCopyOptions and
prepended to the copy options. -/
structure CopyInfo where
  followSymlinks : Bool := false
  copyDirContentsOnly : Bool := false
  attemptUnpack : Bool := false
  createDestPath : Bool := false
  allowWildcard : Bool := false
  allowEmptyWildcard : Bool := false
deriving DecidableEq, Repr

/-- An RFC 3339 timestamp as produced by `time.Parse(time.RFC3339, ...)`.
Only the parsed components are kept. -/
structure Timestamp where
  year : Nat
  month : Nat
  day : Nat
  hour : Nat
  minute : Nat
  second : Nat
  fracDigits : List Nat
  tzMinutes : Int
deriving DecidableEq, Repr

mutual

/-- The emitted build-graph IR (the fragment of `llb.State` construction that
the code generator uses). Each constructor corresponds to one consumer-contract
builder operation: Scratch, Image, HTTP, Git, Local, Frontend, Run (the root of
the exec and the per-mount vertices), AddEnv, Dir, User, Args, and the File
actions. Option arguments are the opaque per-kind option items passed to the
builder. -/
inductive FS where
  | scratch
  | image (ref : String) (opts : List OptItem)
  | http (url : String) (opts : List OptItem)
  | git (remote : String) (ref : String) (opts : List OptItem)
  | local (id : Nat)
  | frontend (input : FS) (opts : List OptItem)
  | execRoot (base : FS) (opts : List OptItem)
  | execMount (base : FS) (opts : List OptItem) (target : String)
  | addEnv (base : FS) (key : String) (value : String)
  | dir (base : FS) (path : String)
  | user (base : FS) (name : String)
  | args (base : FS) (argv : List String)
  | fileMkdir (base : FS) (path : String) (mode : Int) (opts : List OptItem)
  | fileMkfile (base : FS) (path : String) (mode : Int) (content : String)
               (opts : List OptItem)
  | fileRm (base : FS) (path : String) (opts : List OptItem)
  | fileCopy (base : FS) (input : FS) (src : String) (dest : String)
             (opts : List OptItem)
deriving Repr

/-- Opaque per-kind option items (the values of the Go `[]interface{}` option
lists: llb.ImageOption, llb.RunOption, ...). One constructor per option value
the code generator can produce. -/
inductive OptItem where
  | imageResolve
  | httpChecksum (digest : String)
  | httpChmod (mode : Int)
  | httpFilename (filename : String)
  | gitKeepDir
  | localIncludePatterns (patterns : List String)
  | localExcludePatterns (patterns : List String)
  | localFollowPaths (paths : List String)
  | frontendIgnoreCache
  | frontendInput (key : String) (value : FS)
  | frontendOpt (key : String) (value : String)
  | runReadonlyRootfs
  | runEnv (key : String) (value : String)
  | runDir (path : String)
  | runUser (name : String)
  | runNetwork (mode : NetMode)
  | runSecurity (mode : SecurityMode)
  | runHost (host : String) (ip : String)
  | runSSH (opts : List OptItem)
  | runSecret (target : String) (opts : List OptItem)
  | runMount (target : String) (input : FS) (opts : List OptItem)
  | runShlex (command : String)
  | sshID (id : String)
  | sshSocketOpt (target : String) (uid : Int) (gid : Int) (mode : Int)
  | secretID (id : String)
  | secretFileOpt (uid : Int) (gid : Int) (mode : Int)
  | mountReadonly
  | mountTmpfs
  | mountSourcePath (path : String)
  | mountCache (id : String) (sharing : CacheSharingMode)
  | mkdirWithParents (b : Bool)
  | withUser (owner : String)
  | withCreatedTime (t : Timestamp)
  | rmAllowNotFound (b : Bool)
  | rmAllowWildcard (b : Bool)
  | copyInfo (info : CopyInfo)
deriving Repr

end

/-- IR values produced by the evaluator (the Go `interface{}` results):
filesystem state, string, int, bool, option item lists, a nil interface value,
and the bound list of a variadic parameter. -/
inductive Value where
  | fs (f : FS)
  | str (s : String)
  | int (v : Int)
  | bool (b : Bool)
  | opts (l : List OptItem)
  | nilV
  | list (vs : List Value)
deriving Repr

/-- `parser.ObjKind`: the kind of a scope object. -/
inductive ObjKind where
  | decl
  | field
  | expr
deriving DecidableEq, Repr

/-- The node bound by a scope object. `aliasDecl` carries what a
`parser.AliasDecl` holds: the alias identifier and the back-references to the
enclosing FuncDecl and the aliased CallStmt. -/
inductive ScopeNode where
  | funcDecl (fd : FuncDecl)
  | aliasDecl (ident : String) (fn : FuncDecl) (call : CallStmt)
  | importDecl
  | fieldNode (f : Field)
deriving Repr

/-- `parser.Object`: kind, node, and the bound IR value (for parameters and
pre-evaluated named option values). -/
structure Obj where
  kind : ObjKind
  node : ScopeNode
  data : Value := .nilV
deriving Repr

/-- `parser.Scope`: a frame of name bindings with a parent link. -/
inductive Scope where
  | empty
  | frame (objects : List (String × Obj)) (outer : Scope)
deriving Repr

/-- `Scope.Lookup`: walk the frame chain, first hit wins. -/
def Scope.lookup : Scope → String → Option Obj
  | .empty, _ => none
  | .frame objects outer, name =>
      match objects.find? (fun p => p.1 = name) with
      | some p => some p.2
      | none => outer.lookup name

/-- The outermost frame of a scope chain (the file scope). The binder links a
FuncDecl scope as a parameter frame whose parent is the file scope, so the
root of any evaluation scope is the file scope. -/
def Scope.root : Scope → Scope
  | .empty => .empty
  | .frame objects .empty => .frame objects .empty
  | .frame _ (.frame o s) => Scope.root (.frame o s)

/-! ## Model of the go-shellquote dependency

The code generator assembles run commands with `shellquote.Split` and
`shellquote.Join` from github.com/kballard/go-shellquote. The two functions
are translated here over character lists (the inputs in scope are ASCII). -/

namespace Shellquote

def splitChars : List Char := [' ', '\n', '\t']

def doubleEscapeChars : List Char := ['$', '`', '"', '\n', '\\']

def specialChars : List Char :=
  ['\\', '\'', '"', '`', '$', '{', '[', '|', '&', ';', '<', '>', '(', ')',
   '*', '?', '!']

def extraSpecialChars : List Char := [' ', '\t', '\n']

inductive SplitError where
  | unterminatedSingleQuote
  | unterminatedDoubleQuote
  | unterminatedEscape
deriving DecidableEq, Repr

/-- The three states of `splitWord`: outside quotes, inside single quotes,
inside double quotes. -/
inductive WordMode where
  | raw
  | single
  | double
deriving DecidableEq, Repr

/-- `splitWord`: consume one word from the input, returning the word and the
remaining input. `acc` is the accumulated word (the Go buffer). -/
def splitWordGo : WordMode → List Char → List Char →
    Except SplitError (List Char × List Char)
  | .raw, acc, [] => .ok (acc, [])
  | .raw, acc, c :: rest =>
      if c = '\'' then splitWordGo .single acc rest
      else if c = '"' then splitWordGo .double acc rest
      else if c = '\\' then
        match rest with
        | [] => .error .unterminatedEscape
        | c2 :: r2 =>
            if c2 = '\n' then splitWordGo .raw acc r2
            else splitWordGo .raw (acc ++ [c2]) r2
      else if c ∈ splitChars then .ok (acc, rest)
      else splitWordGo .raw (acc ++ [c]) rest
  | .single, _, [] => .error .unterminatedSingleQuote
  | .single, acc, c :: rest =>
      if c = '\'' then splitWordGo .raw acc rest
      else splitWordGo .single (acc ++ [c]) rest
  | .double, _, [] => .error .unterminatedDoubleQuote
  | .double, acc, c :: rest =>
      if c = '"' then splitWordGo .raw acc rest
      else if c = '\\' then
        match rest with
        | [] => .error .unterminatedDoubleQuote
        | c2 :: r2 =>
            if c2 ∈ doubleEscapeChars then
              if c2 = '\n' then splitWordGo .double acc r2
              else splitWordGo .double (acc ++ [c2]) r2
            else splitWordGo .double (acc ++ ['\\', c2]) r2
      else splitWordGo .double (acc ++ [c]) rest

theorem splitWordGo_rem_le (m : WordMode) (acc input w rem : List Char)
    (h : splitWordGo m acc input = .ok (w, rem)) :
    rem.length ≤ input.length := by
  induction m, acc, input using splitWordGo.induct generalizing w rem <;>
    (try unfold splitWordGo at h) <;> (try simp_all) <;> omega

theorem splitWordGo_rem_lt (m : WordMode) (acc : List Char) (c : Char)
    (input w rem : List Char)
    (h : splitWordGo m acc (c :: input) = .ok (w, rem)) :
    rem.length < (c :: input).length := by
  cases m <;> unfold splitWordGo at h <;> (repeat' split at h) <;>
    first
      | (have h2 := splitWordGo_rem_le _ _ _ _ _ h
         simp only [List.length_cons]
         omega)
      | simp_all

/-- `shellquote.Split`: divide a string into words, the way a posix shell
would. Leading split characters and escaped newlines are skipped between
words. -/
def splitGo : List Char → Except SplitError (List (List Char))
  | [] => .ok []
  | c :: rest =>
      if c ∈ splitChars then splitGo rest
      else if c = '\\' ∧ rest = [] then .error .unterminatedEscape
      else if c = '\\' ∧ rest.head? = some '\n' then splitGo rest.tail
      else
        match h : splitWordGo .raw [] (c :: rest) with
        | .error e => .error e
        | .ok (w, rem) =>
            match splitGo rem with
            | .error e => .error e
            | .ok ws => .ok (w :: ws)
  termination_by input => input.length
  decreasing_by
    all_goals first
      | (simp only [List.length_cons, List.length_tail]; omega)
      | (exact splitWordGo_rem_lt _ _ _ _ _ _ h)

/-- A fuelled twin of `splitGo` that reduces by evaluation (the well-founded
recursion of `splitGo` does not); `splitGoF_eq_splitGo` shows they agree for
any sufficient fuel. -/
def splitGoF : Nat → List Char → Except SplitError (List (List Char))
  | 0, _ => .error .unterminatedEscape
  | _ + 1, [] => .ok []
  | fuel + 1, c :: rest =>
      if c ∈ splitChars then splitGoF fuel rest
      else if c = '\\' ∧ rest = [] then .error .unterminatedEscape
      else if c = '\\' ∧ rest.head? = some '\n' then splitGoF fuel rest.tail
      else
        match splitWordGo .raw [] (c :: rest) with
        | .error e => .error e
        | .ok (w, rem) =>
            match splitGoF fuel rem with
            | .error e => .error e
            | .ok ws => .ok (w :: ws)

theorem splitGoF_eq_splitGo : ∀ (fuel : Nat) (input : List Char),
    input.length < fuel → splitGoF fuel input = splitGo input := by
  intro fuel
  induction fuel with
  | zero => intro input h; omega
  | succ f ih =>
      intro input hlen
      match input with
      | [] => rw [splitGo]; rfl
      | c :: rest =>
          rw [splitGo]
          simp only [splitGoF]
          simp only [List.length_cons] at hlen
          by_cases h1 : c ∈ splitChars
          · simp only [if_pos h1]
            exact ih rest (by omega)
          · simp only [if_neg h1]
            by_cases h2 : c = '\\' ∧ rest = []
            · simp only [if_pos h2]
            · simp only [if_neg h2]
              by_cases h3 : c = '\\' ∧ rest.head? = some '\n'
              · simp only [if_pos h3]
                refine ih rest.tail ?_
                have := List.length_tail rest
                omega
              · simp only [if_neg h3]
                cases hw : splitWordGo .raw [] (c :: rest) with
                | error e => rfl
                | ok p =>
                    obtain ⟨w, rem⟩ := p
                    have hlt := splitWordGo_rem_lt _ _ _ _ _ _ hw
                    simp only [List.length_cons] at hlt
                    simp only [ih rem (by omega)]

def Split (s : String) : Except SplitError (List String) :=
  (splitGoF (s.data.length + 1) s.data).map fun ws => ws.map fun w => String.mk w

/-- Quote-mode encoder of `quote`: wrap runs of non-quote characters in single
quotes and emit each single quote as an escaped quote, tracking whether a
quoted run is open exactly as the Go loop does. -/
def quoteModeAux : Bool → List Char → List Char
  | true, [] => ['\'']
  | false, [] => []
  | inQ, c :: rest =>
      if c = '\'' then
        (if inQ then ['\''] else []) ++ ['\\', '\''] ++ quoteModeAux false rest
      else
        (if inQ then [] else ['\'']) ++ [c] ++ quoteModeAux true rest

/-- `quote`: a single word quoted for the shell. Words containing whitespace
are quoted wholesale; otherwise special characters are backslash-escaped, with
a tilde escaped only at the start of the word. -/
def quote (word : List Char) : List Char :=
  if word = [] then ['\'', '\'']
  else if word.any (fun c => c ∈ extraSpecialChars) then quoteModeAux false word
  else
    match word with
    | [] => []
    | c :: rest =>
        (if c ∈ specialChars ∨ c = '~' then ['\\', c] else [c]) ++
          rest.flatMap fun c2 => if c2 ∈ specialChars then ['\\', c2] else [c2]

/-- `shellquote.Join`: quote each word and join them with single spaces. -/
def Join (words : List String) : String :=
  String.mk (List.intercalate [' '] (words.map fun w => quote w.data))


end Shellquote

/-! ## RFC 3339 timestamps

Modelled from the spec: "createdTime parses an RFC 3339 timestamp" is
implemented in Go by the standard library call time.Parse(time.RFC3339, v),
which is outside src/. The validator below accepts the RFC 3339 date-time
grammar YYYY-MM-DDTHH:MM:SS[.fraction](Z|+HH:MM|-HH:MM) with calendar range
checks. -/

namespace RFC3339

def digit (c : Char) : Option Nat :=
  if '0' ≤ c ∧ c ≤ '9' then some (c.toNat - '0'.toNat) else none

def digit2 (c1 c2 : Char) : Option Nat := do
  let d1 ← digit c1
  let d2 ← digit c2
  pure (d1 * 10 + d2)

def leapYear (y : Nat) : Bool := y % 4 = 0 ∧ (y % 100 ≠ 0 ∨ y % 400 = 0)

def daysInMonth (y m : Nat) : Nat :=
  if m = 2 then (if leapYear y then 29 else 28)
  else if m = 4 ∨ m = 6 ∨ m = 9 ∨ m = 11 then 30
  else 31

/-- Parse the timezone suffix: Z or a signed HH:MM offset, ending the input. -/
def parseOffset : List Char → Option Int
  | ['Z'] => some 0
  | ['+', h1, h2, ':', m1, m2] => do
      let h ← digit2 h1 h2
      let m ← digit2 m1 m2
      if h ≤ 23 ∧ m ≤ 59 then pure (Int.ofNat (h * 60 + m)) else none
  | ['-', h1, h2, ':', m1, m2] => do
      let h ← digit2 h1 h2
      let m ← digit2 m1 m2
      if h ≤ 23 ∧ m ≤ 59 then pure (-(Int.ofNat (h * 60 + m))) else none
  | _ => none

/-- Parse an optional fractional-seconds field followed by the offset. -/
def parseFracOffset (l : List Char) : Option (List Nat × Int) :=
  match l with
  | '.' :: rest =>
      let ds := rest.takeWhile fun c => (digit c).isSome
      if ds = [] then none
      else do
        let tz ← parseOffset (rest.drop ds.length)
        pure (ds.filterMap digit, tz)
  | _ => do
      let tz ← parseOffset l
      pure ([], tz)

/-- Validate and parse an RFC 3339 timestamp. -/
def parse (s : String) : Option Timestamp :=
  match s.data with
  | y1 :: y2 :: y3 :: y4 :: '-' :: m1 :: m2 :: '-' :: d1 :: d2 :: 'T' ::
      h1 :: h2 :: ':' :: n1 :: n2 :: ':' :: s1 :: s2 :: rest => do
      let yh ← digit2 y1 y2
      let yl ← digit2 y3 y4
      let year := yh * 100 + yl
      let month ← digit2 m1 m2
      let day ← digit2 d1 d2
      let hour ← digit2 h1 h2
      let minute ← digit2 n1 n2
      let second ← digit2 s1 s2
      let (frac, tz) ← parseFracOffset rest
      if 1 ≤ month ∧ month ≤ 12 ∧ 1 ≤ day ∧ day ≤ daysInMonth year month ∧
          hour ≤ 23 ∧ minute ≤ 59 ∧ second ≤ 59 then
        pure { year := year, month := month, day := day, hour := hour,
               minute := minute, second := second, fracDigits := frac,
               tzMinutes := tz }
      else none
  | _ => none

end RFC3339

/-! ## The report package

The report package (builtin registry, debug set, error values) is code of the
repository outside src/; only its callers are visible. It is modelled from
the spec here. -/

namespace report

/-- Modelled from the spec: the "small, fixed set" of debug-family call names
skipped by block evaluation (the interactive breakpoint builtin). -/
def Debugs : List String := ["breakpoint"]

/-- `report.Contains`: membership of a name in a name list. -/
def Contains (l : List String) (s : String) : Bool := l.contains s

/-- Modelled from the spec: the builtin registry names, keyed by receiver
type, from the spec section 4.4 contract list. Only the name component is
needed by the evaluator (the signature checks live in the type checker). -/
def Builtins (t : PrimType) : List String :=
  match t with
  | .fs => ["scratch", "image", "http", "git", "local", "generate",
            "run", "env", "dir", "user", "entrypoint", "mkdir", "mkfile",
            "rm", "copy"]
  | .str => ["value", "format"]
  | _ => []

end report

/-! ## Evaluation state, errors, and the emit monad -/

/-- Errors of code generation. `goPanic` models a Go runtime panic or explicit
panic call (a crash, as opposed to a returned error); `outOfFuel` models
divergence of the Go evaluator on unboundedly recursive source programs. -/
inductive EmitErr where
  | unknownTarget (name : String)
  | invalidTarget (name : String)
  | timeParse (input : String)
  | shellquoteErr (e : Shellquote.SplitError)
  | goPanic (msg : String)
  | outOfFuel
deriving DecidableEq, Repr

/-- One debug-hook invocation: Generate invokes the hook once on the file
before evaluation, and block evaluation invokes it before each statement with
the value current at that point. -/
inductive DebugEvent where
  | atFile
  | atCall (call : CallStmt) (value : Value)
deriving Repr

/-- The threaded evaluator state: the fresh-id counter modelling
identity.NewID and the CodeGenInfo.Locals table, plus the debug-hook log. -/
structure EmitState where
  nextId : Nat := 0
  locals : List (Nat × String) := []
  debugLog : List DebugEvent := []
deriving Repr

/-- One alias-callback invocation: the aliased CallStmt and the value passed. -/
abbrev AEvent := CallStmt × Value

/-- The emit monad: state threading over Except, together with the list of
alias-callback invocations the computation performs (in order). -/
def EmitM (α : Type) := EmitState → Except EmitErr (α × EmitState × List AEvent)

def EmitM.pure (a : α) : EmitM α := fun s => .ok (a, s, [])

def EmitM.bind (m : EmitM α) (f : α → EmitM β) : EmitM β := fun s =>
  match m s with
  | .error e => .error e
  | .ok (a, s1, ev1) =>
      match f a s1 with
      | .error e => .error e
      | .ok (b, s2, ev2) => .ok (b, s2, ev1 ++ ev2)

instance instMonadEmitM : Monad EmitM where
  pure := EmitM.pure
  bind := EmitM.bind

/-- Fail with an error (or model a Go panic). -/
def EmitM.throw (e : EmitErr) : EmitM α := fun _ => .error e

/-- Lift a pure Except computation (state unchanged, no events). -/
def liftE (x : Except EmitErr α) : EmitM α := fun s =>
  match x with
  | .error e => .error e
  | .ok a => .ok (a, s, [])

/-- Run a sub-evaluation with the no-op alias callback (Go call sites passing
noopAliasCallback): its alias events are dropped. -/
def censorAliases (m : EmitM α) : EmitM α := fun s =>
  match m s with
  | .error e => .error e
  | .ok (a, s1, _) => .ok (a, s1, [])

/-- Invoke the alias callback (record one event). -/
def tellAlias (c : CallStmt) (v : Value) : EmitM Unit := fun s =>
  .ok ((), s, [(c, v)])

/-- Record the alias-callback invocations a state-option closure performed
when it was applied. -/
def tellAliases (evs : List AEvent) : EmitM Unit := fun s => .ok ((), s, evs)

/-- Invoke the debug hook (the default no-op debugger; logged). -/
def logDebug (e : DebugEvent) : EmitM Unit := fun s =>
  .ok ((), { s with debugLog := s.debugLog ++ [e] }, [])

/-- identity.NewID plus the info.Locals[id] = path write: allocate a fresh
opaque identifier and record the id-to-path binding. -/
def allocLocal (path : String) : EmitM Nat := fun s =>
  .ok (s.nextId,
       { s with nextId := s.nextId + 1, locals := s.locals ++ [(s.nextId, path)] },
       [])

/-- Go type assertion `v.(llb.State)`: panics unless the dynamic type is a
filesystem state. -/
def Value.asFS : Value → Except EmitErr FS
  | .fs f => .ok f
  | _ => .error (.goPanic "interface conversion")

/-- Go type assertion `v.(string)`. -/
def Value.asStr : Value → Except EmitErr String
  | .str s => .ok s
  | _ => .error (.goPanic "interface conversion")

/-- Go type assertion to int. -/
def Value.asInt : Value → Except EmitErr Int
  | .int v => .ok v
  | _ => .error (.goPanic "interface conversion")

/-- Go type assertion to bool. -/
def Value.asBool : Value → Except EmitErr Bool
  | .bool b => .ok b
  | _ => .error (.goPanic "interface conversion")

/-- Go type assertion `obj.Data.([]interface{})` for option lists. -/
def Value.asOpts : Value → Except EmitErr (List OptItem)
  | .opts l => .ok l
  | _ => .error (.goPanic "interface conversion")

/-! ## The evaluator / code generator (src/codegen/codegen.go)

The mutually recursive emit functions below are translated from codegen.go.
Each takes a fuel parameter (see the header); all recursive calls pass the
predecessor. The Go `[]interface{}` option lists with their per-kind
type-assertion loops (`for _, iopt := range iopts { opt := iopt.(llb.XOption);
... }`) are modelled by passing the `List OptItem` through: in a checked
program the assertions never fail, and the loop is the identity on the list.
Functions of the repository that are not under src/ carry a doc comment
starting "Modelled from the spec:". -/

/-- Go `args[i]`: index into the argument list, panicking when out of range. -/
def getArg (args : List Expr) (i : Nat) : Except EmitErr Expr :=
  match args.get? i with
  | some e => .ok e
  | none => .error (.goPanic "index out of range")

/-- The initial accumulator of emitBlock: the zero value `llb.Scratch()` for
fs blocks, the empty string for string blocks, nil otherwise. -/
def blockIdentity (typ : PrimType) : Value :=
  match typ with
  | .fs => .fs FS.scratch
  | .str => .str ""
  | _ => .nilV

/-- Whether a call statement is a debug-family call
(`report.Contains(report.Debugs, name)`). -/
def isDebugName (name : String) : Bool := report.Contains report.Debugs name

/-- The leading loop of emitBlock: invoke the debug hook on each leading
debug-family call and skip it; stop at the first other statement, returning it
with the statements after it. Returns none when the loop runs out (in Go the
index then keeps its initial value 0). A trivia statement makes the Go loop
dereference a nil CallStmt. -/
def emitBlockSkip (v : Value) : List Stmt → EmitM (Option (CallStmt × List Stmt))
  | [] => pure none
  | .call c :: rest =>
      if isDebugName c.func then do
        logDebug (.atCall c v)
        emitBlockSkip v rest
      else
        pure (some (c, rest))
  | _ :: _ => EmitM.throw (.goPanic "nil pointer dereference")

/-- Go `stmts[0].Call` for the no-break case of the leading loop (`index`
stays 0); out of range on an empty list, nil dereference on trivia. -/
def sourceStmtAtZero (stmts : List Stmt) : Except EmitErr (CallStmt × List Stmt) :=
  match stmts with
  | [] => .error (.goPanic "index out of range")
  | .call c :: rest => .ok (c, rest)
  | _ :: _ => .error (.goPanic "nil pointer dereference")

/-- A chain function at the Value level (the closure returned by
emitChainStmt); applying it yields the next value and the alias-callback
invocations the closure performed. -/
abbrev ChainFn := Value → Except EmitErr (Value × List AEvent)

/-- A chain function at the llb.State level (llb.StateOption). -/
abbrev FsChainFn := FS → FS × List AEvent

/-- emitStringChainStmt: the string-chain evaluator is unimplemented in the
source; it panics unconditionally. -/
def emitStringChainStmt (_fuel : Nat) (_scope : Scope) (_call : CallStmt) :
    EmitM (String → String) :=
  EmitM.throw (.goPanic "unimplemented")

/-- Modelled from the spec: printf-style %s/%d expansion of `format`
(fmt.Sprintf is the standard library, outside src/). Arguments are the
already-evaluated strings; a missing argument yields a MISSING marker. -/
def sprintfGo : List Char → List String → List Char
  | [], _ => []
  | '%' :: c :: rest, args =>
      if c = 's' ∨ c = 'd' then
        match args with
        | [] => '%' :: '!' :: c :: ('(' :: "MISSING)".data ++ sprintfGo rest [])
        | a :: args2 => a.data ++ sprintfGo rest args2
      else if c = '%' then '%' :: sprintfGo rest args
      else '%' :: c :: sprintfGo rest args
  | c :: rest, args => c :: sprintfGo rest args

/-- fmt.Sprintf restricted to the %s/%d directives the spec gives `format`. -/
def sprintf (format : String) (args : List String) : String :=
  String.mk (sprintfGo format.data args)

/-- time.Parse(time.RFC3339, v) as used by createdTime options: a valid
timestamp parses, anything else is a returned error (not a panic). -/
def parseCreatedTime (v : String) : Except EmitErr Timestamp :=
  match RFC3339.parse v with
  | some t => .ok t
  | none => .error (.timeParse v)

/-- Accumulator state for emitSSHOptions (Go sshSocketOpt, fields default to
zero values). -/
structure SSHSocketOpt where
  target : String := ""
  uid : Int := 0
  gid : Int := 0
  mode : Int := 0
deriving DecidableEq, Repr

/-- Accumulator state for emitSecretOptions (Go secretOpt). -/
structure SecretOpt where
  uid : Int := 0
  gid : Int := 0
  mode : Int := 0
deriving DecidableEq, Repr

mutual

/-- emitBlock: initialize the accumulator to the identity of the block type,
skip leading debug calls, evaluate the first other statement as the source
statement (wholesale replacement), then evaluate the remaining statements as
chain statements. Alias callbacks fire after any aliased statement. -/
def emitBlock : Nat → Scope → PrimType → List Stmt → EmitM Value
  | 0, _, _, _ => EmitM.throw .outOfFuel
  | fuel + 1, scope, typ, stmts => do
      let v := blockIdentity typ
      let r ← emitBlockSkip v stmts
      let (sourceStmt, rest) ←
        match r with
        | some p => EmitM.pure p
        | none => liftE (sourceStmtAtZero stmts)
      logDebug (.atCall sourceStmt v)
      let v1 ← emitSourceStmt fuel scope typ sourceStmt
      _ ← match sourceStmt.aliasName with
          | some _ => tellAlias sourceStmt v1
          | none => EmitM.pure ()
      emitBlockRest fuel scope typ v1 rest

/-- The chain loop of emitBlock over the statements after the source
statement: debug calls get the hook and are skipped; other calls get the hook,
are emitted as chain functions, and update the accumulator; aliased calls
fire the alias callback with the updated accumulator. -/
def emitBlockRest : Nat → Scope → PrimType → Value → List Stmt → EmitM Value
  | 0, _, _, _, _ => EmitM.throw .outOfFuel
  | _ + 1, _, _, v, [] => EmitM.pure v
  | fuel + 1, scope, typ, v, stmt :: rest =>
      match stmt with
      | .call c =>
          if isDebugName c.func then do
            logDebug (.atCall c v)
            emitBlockRest fuel scope typ v rest
          else do
            logDebug (.atCall c v)
            let chain ← emitChainStmt fuel scope typ c
            let (v2, evs) ← liftE (chain v)
            tellAliases evs
            _ ← match c.aliasName with
                | some _ => tellAlias c v2
                | none => EmitM.pure ()
            emitBlockRest fuel scope typ v2 rest
      | _ => EmitM.throw (.goPanic "nil pointer dereference")

/-- emitChainStmt: dispatch on the block type, wrapping the typed chain in a
Value-level closure that performs the Go type assertion on application. A
filesystem chain that matched no builtin is a nil llb.StateOption; applying
it panics. -/
def emitChainStmt : Nat → Scope → PrimType → CallStmt → EmitM ChainFn
  | 0, _, _, _ => EmitM.throw .outOfFuel
  | fuel + 1, scope, typ, call =>
      match typ with
      | .fs => do
          let chain ← emitFilesystemChainStmt fuel scope call
          EmitM.pure (fun v => do
            let st ← v.asFS
            match chain with
            | some f =>
                let (st2, evs) := f st
                .ok (.fs st2, evs)
            | none => .error (.goPanic "nil function value"))
      | .str => do
          let chain ← emitStringChainStmt fuel scope call
          EmitM.pure (fun v => do
            let s ← v.asStr
            .ok (.str (chain s), []))
      | _ => EmitM.throw (.goPanic "unknown chain stmt")

/-- emitFilesystemBlock: a block evaluation at type fs, asserting the result
to a filesystem state. -/
def emitFilesystemBlock : Nat → Scope → List Stmt → EmitM FS
  | 0, _, _ => EmitM.throw .outOfFuel
  | fuel + 1, scope, stmts => do
      let v ← emitBlock fuel scope .fs stmts
      liftE v.asFS

/-- emitStringBlock: a block evaluation at type string with the no-op alias
callback. -/
def emitStringBlock : Nat → Scope → List Stmt → EmitM String
  | 0, _, _ => EmitM.throw .outOfFuel
  | fuel + 1, scope, stmts => do
      let v ← censorAliases (emitBlock fuel scope .str stmts)
      liftE v.asStr

/-- emitFuncLit: evaluate a block literal at its declared type; int and bool
literals are unimplemented in the source. -/
def emitFuncLit : Nat → Scope → FuncLit → String → EmitM Value
  | 0, _, _, _ => EmitM.throw .outOfFuel
  | fuel + 1, scope, lit, op =>
      match lit.typ.principal with
      | .int => EmitM.throw (.goPanic "unimplemented")
      | .bool => EmitM.throw (.goPanic "unimplemented")
      | .fs => do
          let st ← emitFilesystemBlock fuel scope (NonEmptyStmts (some lit.body))
          EmitM.pure (.fs st)
      | .str => do
          let s ← emitStringBlock fuel scope (NonEmptyStmts (some lit.body))
          EmitM.pure (.str s)
      | .option => do
          let l ← emitOptions fuel scope op (NonEmptyStmts (some lit.body))
          EmitM.pure (.opts l)

/-- emitSourceStmt: a builtin of the block type dispatches to the typed source
emitter; otherwise the callee is looked up — a FuncDecl is invoked with the
no-op alias callback, an AliasDecl is evaluated for its captured value, and a
parameter binding returns its bound value. An unresolved name panics. -/
def emitSourceStmt : Nat → Scope → PrimType → CallStmt → EmitM Value
  | 0, _, _, _ => EmitM.throw .outOfFuel
  | fuel + 1, scope, typ, call =>
      if (report.Builtins typ).contains call.func then
        match typ with
        | .fs => do
            let st ← emitFilesystemSourceStmt fuel scope call
            EmitM.pure (.fs st)
        | .str => do
            let s ← emitStringSourceStmt fuel scope call
            EmitM.pure (.str s)
        | _ => EmitM.throw (.goPanic "unimplemented")
      else
        match scope.lookup call.func with
        | none => EmitM.throw (.goPanic call.func)
        | some obj =>
            match obj.node with
            | .funcDecl fd => censorAliases (emitFuncDecl fuel scope fd call "")
            | .aliasDecl ident fn _ => emitAliasDecl fuel scope ident fn call
            | .fieldNode _ => EmitM.pure obj.data
            | _ => EmitM.throw (.goPanic "unknown obj type")

/-- emitFilesystemSourceStmt: the fs source builtins. The with-option items
are evaluated first; image, http, git and generate pass them to the builder
(generate prepending IgnoreCache unconditionally), local drops them after
building them, scratch takes none. local allocates a fresh opaque id and
records id to path in the locals table. -/
def emitFilesystemSourceStmt : Nat → Scope → CallStmt → EmitM FS
  | 0, _, _ => EmitM.throw .outOfFuel
  | fuel + 1, scope, call => do
      let iopts ← emitWithOption fuel scope call call.withOpt
      let args := call.args
      match call.func with
      | "scratch" => EmitM.pure FS.scratch
      | "image" => do
          let ref ← emitStringExpr fuel scope (← liftE (getArg args 0))
          EmitM.pure (FS.image ref iopts)
      | "http" => do
          let url ← emitStringExpr fuel scope (← liftE (getArg args 0))
          EmitM.pure (FS.http url iopts)
      | "git" => do
          let remote ← emitStringExpr fuel scope (← liftE (getArg args 0))
          let ref ← emitStringExpr fuel scope (← liftE (getArg args 1))
          EmitM.pure (FS.git remote ref iopts)
      | "local" => do
          let path ← emitStringExpr fuel scope (← liftE (getArg args 0))
          let id ← allocLocal path
          EmitM.pure (FS.local id)
      | "generate" => do
          let frontend ← emitFilesystemExpr fuel scope (← liftE (getArg args 0))
          EmitM.pure (FS.frontend frontend (OptItem.frontendIgnoreCache :: iopts))
      | _ => EmitM.throw (.goPanic "unknown fs source stmt")

/-- emitStringSourceStmt: the string source builtins value and format. -/
def emitStringSourceStmt : Nat → Scope → CallStmt → EmitM String
  | 0, _, _ => EmitM.throw .outOfFuel
  | fuel + 1, scope, call =>
      let args := call.args
      match call.func with
      | "value" => do
          emitStringExpr fuel scope (← liftE (getArg args 0))
      | "format" => do
          let formatStr ← emitStringExpr fuel scope (← liftE (getArg args 0))
          let as ← (args.drop 1).mapM (fun arg => emitStringExpr fuel scope arg)
          EmitM.pure (sprintf formatStr as)
      | _ => EmitM.throw (.goPanic "unknown string source stmt")

/-- emitWithOption: no with clause yields no items; a with identifier must
resolve to a pre-evaluated expression binding whose data is the option list;
a with block literal evaluates its non-trivia statements as options of the
parent call name. -/
def emitWithOption : Nat → Scope → CallStmt → Option WithOpt → EmitM (List OptItem)
  | 0, _, _, _ => EmitM.throw .outOfFuel
  | fuel + 1, scope, parent, w =>
      match w with
      | none => EmitM.pure []
      | some (.ident name) =>
          match scope.lookup name with
          | none => EmitM.throw (.goPanic "nil pointer dereference")
          | some obj =>
              match obj.kind with
              | .expr => liftE obj.data.asOpts
              | _ => EmitM.throw (.goPanic "unknown with option kind")
      | some (.funcLit lit) =>
          emitOptions fuel scope parent.func (NonEmptyStmts (some lit.body))

/-- The scan of a run call's inline with-block for mount statements bearing an
as alias: re-evaluates each such mount's target string, collecting the targets
in order (duplicates kept) and the target-to-CallStmt map (later statements
overwrite, modelled by fronting the lookup list). -/
def emitRunMountScan : Nat → Scope → List Stmt →
    EmitM (List String × List (String × CallStmt))
  | 0, _, _ => EmitM.throw .outOfFuel
  | _ + 1, _, [] => EmitM.pure ([], [])
  | fuel + 1, scope, stmt :: rest =>
      match stmt with
      | .call c =>
          if c.func ≠ "mount" ∨ c.aliasName = none then
            emitRunMountScan fuel scope rest
          else do
            let target ← emitStringExpr fuel scope (← liftE (getArg c.args 1))
            let (ts, cs) ← emitRunMountScan fuel scope rest
            EmitM.pure (target :: ts, cs ++ [(target, c)])
      | _ => EmitM.throw (.goPanic "nil pointer dereference")

/-- emitFilesystemChainStmt: the fs chain builtins. run assembles its command:
with one argument it passes the string through when it splits to a single
shell word, otherwise wraps it as a /bin/sh -c invocation; with several
arguments it shell-quotes and joins them. The returned state option execs the
state, fires the alias callback for each scanned aliased mount with the
post-exec mount vertex, and returns the exec root. A name matching no builtin
leaves the nil state option. -/
def emitFilesystemChainStmt : Nat → Scope → CallStmt → EmitM (Option FsChainFn)
  | 0, _, _ => EmitM.throw .outOfFuel
  | fuel + 1, scope, call => do
      let args := call.args
      let iopts ← emitWithOption fuel scope call call.withOpt
      match call.func with
      | "run" => do
          let shlex ←
            if args.length = 1 then do
              let commandStr ← emitStringExpr fuel scope (← liftE (getArg args 0))
              let parts ← liftE
                ((Shellquote.Split commandStr).mapError fun e => .shellquoteErr e)
              if parts.length = 1 then EmitM.pure commandStr
              else EmitM.pure (Shellquote.Join ["/bin/sh", "-c", commandStr])
            else do
              let runArgs ← args.mapM (fun arg => emitStringExpr fuel scope arg)
              EmitM.pure (Shellquote.Join runArgs)
          let (targets, calls) ←
            match call.withOpt with
            | none => EmitM.pure ([], [])
            | some (.ident _) => EmitM.pure ([], [])
            | some (.funcLit lit) =>
                emitRunMountScan fuel scope (NonEmptyStmts (some lit.body))
          let opts := iopts ++ [OptItem.runShlex shlex]
          EmitM.pure (some fun st =>
            let evs := targets.map fun t =>
              (((calls.find? fun p => p.1 = t).map Prod.snd).getD
                 (CallStmt.mk "" [] none none),
               Value.fs (FS.execMount st opts t))
            (FS.execRoot st opts, evs))
      | "env" => do
          let key ← emitStringExpr fuel scope (← liftE (getArg args 0))
          let value ← emitStringExpr fuel scope (← liftE (getArg args 1))
          EmitM.pure (some fun st => (FS.addEnv st key value, []))
      | "dir" => do
          let path ← emitStringExpr fuel scope (← liftE (getArg args 0))
          EmitM.pure (some fun st => (FS.dir st path, []))
      | "user" => do
          let name ← emitStringExpr fuel scope (← liftE (getArg args 0))
          EmitM.pure (some fun st => (FS.user st name, []))
      | "entrypoint" => do
          let stArgs ← args.mapM (fun arg => emitStringExpr fuel scope arg)
          EmitM.pure (some fun st => (FS.args st stArgs, []))
      | "mkdir" => do
          let path ← emitStringExpr fuel scope (← liftE (getArg args 0))
          let mode ← emitIntExpr fuel scope (← liftE (getArg args 1))
          let iopts2 ← emitWithOption fuel scope call call.withOpt
          EmitM.pure (some fun st => (FS.fileMkdir st path mode iopts2, []))
      | "mkfile" => do
          let path ← emitStringExpr fuel scope (← liftE (getArg args 0))
          let mode ← emitIntExpr fuel scope (← liftE (getArg args 1))
          let content ← emitStringExpr fuel scope (← liftE (getArg args 2))
          EmitM.pure (some fun st => (FS.fileMkfile st path mode content iopts, []))
      | "rm" => do
          let path ← emitStringExpr fuel scope (← liftE (getArg args 0))
          EmitM.pure (some fun st => (FS.fileRm st path iopts, []))
      | "copy" => do
          let input ← emitFilesystemExpr fuel scope (← liftE (getArg args 0))
          let src ← emitStringExpr fuel scope (← liftE (getArg args 1))
          let dest ← emitStringExpr fuel scope (← liftE (getArg args 2))
          EmitM.pure (some fun st => (FS.fileCopy st input src dest iopts, []))
      | _ => EmitM.pure none

/-- emitOptions: dispatch on the parent operation name to the per-kind option
emitter. -/
def emitOptions : Nat → Scope → String → List Stmt → EmitM (List OptItem)
  | 0, _, _, _ => EmitM.throw .outOfFuel
  | fuel + 1, scope, op, stmts =>
      match op with
      | "image" => emitImageOptions fuel scope op stmts
      | "http" => emitHTTPOptions fuel scope op stmts
      | "git" => emitGitOptions fuel scope op stmts
      | "local" => emitLocalOptions fuel scope op stmts
      | "generate" => emitGenerateOptions fuel scope op stmts
      | "run" => emitExecOptions fuel scope op stmts
      | "ssh" => emitSSHOptions fuel scope op stmts
      | "secret" => emitSecretOptions fuel scope op stmts
      | "mount" => emitMountOptions fuel scope op stmts
      | "mkdir" => emitMkdirOptions fuel scope op stmts
      | "mkfile" => emitMkfileOptions fuel scope op stmts
      | "rm" => emitRmOptions fuel scope op stmts
      | "copy" => emitCopyOptions fuel scope op stmts
      | _ => EmitM.throw (.goPanic "call stmt does not support options")

/-- emitImageOptions: resolve appends the default meta resolver when true;
other names evaluate as option expressions. Non-call statements are skipped. -/
def emitImageOptions : Nat → Scope → String → List Stmt → EmitM (List OptItem)
  | 0, _, _, _ => EmitM.throw .outOfFuel
  | _ + 1, _, _, [] => EmitM.pure []
  | fuel + 1, scope, op, stmt :: rest =>
      match stmt with
      | .call c =>
          (match c.func with
           | "resolve" => do
               let v ← maybeEmitBoolExpr fuel scope c.args
               let opts ← emitImageOptions fuel scope op rest
               EmitM.pure ((if v then [OptItem.imageResolve] else []) ++ opts)
           | _ => do
               let iopts ← emitOptionExpr fuel scope c op (Expr.ident c.func)
               let opts ← emitImageOptions fuel scope op rest
               EmitM.pure (iopts ++ opts))
      | _ => emitImageOptions fuel scope op rest

/-- emitHTTPOptions: checksum, chmod, filename. -/
def emitHTTPOptions : Nat → Scope → String → List Stmt → EmitM (List OptItem)
  | 0, _, _, _ => EmitM.throw .outOfFuel
  | _ + 1, _, _, [] => EmitM.pure []
  | fuel + 1, scope, op, stmt :: rest =>
      match stmt with
      | .call c =>
          (match c.func with
           | "checksum" => do
               let dgst ← emitStringExpr fuel scope (← liftE (getArg c.args 0))
               let opts ← emitHTTPOptions fuel scope op rest
               EmitM.pure (OptItem.httpChecksum dgst :: opts)
           | "chmod" => do
               let mode ← emitIntExpr fuel scope (← liftE (getArg c.args 0))
               let opts ← emitHTTPOptions fuel scope op rest
               EmitM.pure (OptItem.httpChmod mode :: opts)
           | "filename" => do
               let filename ← emitStringExpr fuel scope (← liftE (getArg c.args 0))
               let opts ← emitHTTPOptions fuel scope op rest
               EmitM.pure (OptItem.httpFilename filename :: opts)
           | _ => do
               let iopts ← emitOptionExpr fuel scope c op (Expr.ident c.func)
               let opts ← emitHTTPOptions fuel scope op rest
               EmitM.pure (iopts ++ opts))
      | _ => emitHTTPOptions fuel scope op rest

/-- emitGitOptions: keepGitDir. -/
def emitGitOptions : Nat → Scope → String → List Stmt → EmitM (List OptItem)
  | 0, _, _, _ => EmitM.throw .outOfFuel
  | _ + 1, _, _, [] => EmitM.pure []
  | fuel + 1, scope, op, stmt :: rest =>
      match stmt with
      | .call c =>
          (match c.func with
           | "keepGitDir" => do
               let v ← maybeEmitBoolExpr fuel scope c.args
               let opts ← emitGitOptions fuel scope op rest
               EmitM.pure ((if v then [OptItem.gitKeepDir] else []) ++ opts)
           | _ => do
               let iopts ← emitOptionExpr fuel scope c op (Expr.ident c.func)
               let opts ← emitGitOptions fuel scope op rest
               EmitM.pure (iopts ++ opts))
      | _ => emitGitOptions fuel scope op rest

/-- emitLocalOptions: includePatterns, excludePatterns, followPaths, each over
all arguments. -/
def emitLocalOptions : Nat → Scope → String → List Stmt → EmitM (List OptItem)
  | 0, _, _, _ => EmitM.throw .outOfFuel
  | _ + 1, _, _, [] => EmitM.pure []
  | fuel + 1, scope, op, stmt :: rest =>
      match stmt with
      | .call c =>
          (match c.func with
           | "includePatterns" => do
               let patterns ← c.args.mapM (fun arg => emitStringExpr fuel scope arg)
               let opts ← emitLocalOptions fuel scope op rest
               EmitM.pure (OptItem.localIncludePatterns patterns :: opts)
           | "excludePatterns" => do
               let patterns ← c.args.mapM (fun arg => emitStringExpr fuel scope arg)
               let opts ← emitLocalOptions fuel scope op rest
               EmitM.pure (OptItem.localExcludePatterns patterns :: opts)
           | "followPaths" => do
               let paths ← c.args.mapM (fun arg => emitStringExpr fuel scope arg)
               let opts ← emitLocalOptions fuel scope op rest
               EmitM.pure (OptItem.localFollowPaths paths :: opts)
           | _ => do
               let iopts ← emitOptionExpr fuel scope c op (Expr.ident c.func)
               let opts ← emitLocalOptions fuel scope op rest
               EmitM.pure (iopts ++ opts))
      | _ => emitLocalOptions fuel scope op rest

/-- emitGenerateOptions: frontendInput (string key, fs value), frontendOpt
(string key, string value). -/
def emitGenerateOptions : Nat → Scope → String → List Stmt → EmitM (List OptItem)
  | 0, _, _, _ => EmitM.throw .outOfFuel
  | _ + 1, _, _, [] => EmitM.pure []
  | fuel + 1, scope, op, stmt :: rest =>
      match stmt with
      | .call c =>
          (match c.func with
           | "frontendInput" => do
               let key ← emitStringExpr fuel scope (← liftE (getArg c.args 0))
               let value ← emitFilesystemExpr fuel scope (← liftE (getArg c.args 1))
               let opts ← emitGenerateOptions fuel scope op rest
               EmitM.pure (OptItem.frontendInput key value :: opts)
           | "frontendOpt" => do
               let key ← emitStringExpr fuel scope (← liftE (getArg c.args 0))
               let value ← emitStringExpr fuel scope (← liftE (getArg c.args 1))
               let opts ← emitGenerateOptions fuel scope op rest
               EmitM.pure (OptItem.frontendOpt key value :: opts)
           | _ => do
               let iopts ← emitOptionExpr fuel scope c op (Expr.ident c.func)
               let opts ← emitGenerateOptions fuel scope op rest
               EmitM.pure (iopts ++ opts))
      | _ => emitGenerateOptions fuel scope op rest

/-- emitMkdirOptions: createParents, chown, createdTime (RFC 3339, returned
error on parse failure). -/
def emitMkdirOptions : Nat → Scope → String → List Stmt → EmitM (List OptItem)
  | 0, _, _, _ => EmitM.throw .outOfFuel
  | _ + 1, _, _, [] => EmitM.pure []
  | fuel + 1, scope, op, stmt :: rest =>
      match stmt with
      | .call c =>
          (match c.func with
           | "createParents" => do
               let v ← maybeEmitBoolExpr fuel scope c.args
               let opts ← emitMkdirOptions fuel scope op rest
               EmitM.pure (OptItem.mkdirWithParents v :: opts)
           | "chown" => do
               let owner ← emitStringExpr fuel scope (← liftE (getArg c.args 0))
               let opts ← emitMkdirOptions fuel scope op rest
               EmitM.pure (OptItem.withUser owner :: opts)
           | "createdTime" => do
               let v ← emitStringExpr fuel scope (← liftE (getArg c.args 0))
               let t ← liftE (parseCreatedTime v)
               let opts ← emitMkdirOptions fuel scope op rest
               EmitM.pure (OptItem.withCreatedTime t :: opts)
           | _ => do
               let iopts ← emitOptionExpr fuel scope c op (Expr.ident c.func)
               let opts ← emitMkdirOptions fuel scope op rest
               EmitM.pure (iopts ++ opts))
      | _ => emitMkdirOptions fuel scope op rest

/-- emitMkfileOptions: chown, createdTime. -/
def emitMkfileOptions : Nat → Scope → String → List Stmt → EmitM (List OptItem)
  | 0, _, _, _ => EmitM.throw .outOfFuel
  | _ + 1, _, _, [] => EmitM.pure []
  | fuel + 1, scope, op, stmt :: rest =>
      match stmt with
      | .call c =>
          (match c.func with
           | "chown" => do
               let owner ← emitStringExpr fuel scope (← liftE (getArg c.args 0))
               let opts ← emitMkfileOptions fuel scope op rest
               EmitM.pure (OptItem.withUser owner :: opts)
           | "createdTime" => do
               let v ← emitStringExpr fuel scope (← liftE (getArg c.args 0))
               let t ← liftE (parseCreatedTime v)
               let opts ← emitMkfileOptions fuel scope op rest
               EmitM.pure (OptItem.withCreatedTime t :: opts)
           | _ => do
               let iopts ← emitOptionExpr fuel scope c op (Expr.ident c.func)
               let opts ← emitMkfileOptions fuel scope op rest
               EmitM.pure (iopts ++ opts))
      | _ => emitMkfileOptions fuel scope op rest

/-- emitRmOptions: allowNotFound, allowWildcard. -/
def emitRmOptions : Nat → Scope → String → List Stmt → EmitM (List OptItem)
  | 0, _, _, _ => EmitM.throw .outOfFuel
  | _ + 1, _, _, [] => EmitM.pure []
  | fuel + 1, scope, op, stmt :: rest =>
      match stmt with
      | .call c =>
          (match c.func with
           | "allowNotFound" => do
               let v ← maybeEmitBoolExpr fuel scope c.args
               let opts ← emitRmOptions fuel scope op rest
               EmitM.pure (OptItem.rmAllowNotFound v :: opts)
           | "allowWildcard" => do
               let v ← maybeEmitBoolExpr fuel scope c.args
               let opts ← emitRmOptions fuel scope op rest
               EmitM.pure (OptItem.rmAllowWildcard v :: opts)
           | _ => do
               let iopts ← emitOptionExpr fuel scope c op (Expr.ident c.func)
               let opts ← emitRmOptions fuel scope op rest
               EmitM.pure (iopts ++ opts))
      | _ => emitRmOptions fuel scope op rest

/-- The loop of emitCopyOptions: thread the CopyInfo struct, collecting the
other option items. -/
def emitCopyOptionsAux : Nat → Scope → String → CopyInfo → List Stmt →
    EmitM (CopyInfo × List OptItem)
  | 0, _, _, _, _ => EmitM.throw .outOfFuel
  | _ + 1, _, _, cp, [] => EmitM.pure (cp, [])
  | fuel + 1, scope, op, cp, stmt :: rest =>
      match stmt with
      | .call c =>
          (match c.func with
           | "followSymlinks" => do
               let v ← maybeEmitBoolExpr fuel scope c.args
               emitCopyOptionsAux fuel scope op { cp with followSymlinks := v } rest
           | "contentsOnly" => do
               let v ← maybeEmitBoolExpr fuel scope c.args
               emitCopyOptionsAux fuel scope op { cp with copyDirContentsOnly := v } rest
           | "unpack" => do
               let v ← maybeEmitBoolExpr fuel scope c.args
               emitCopyOptionsAux fuel scope op { cp with attemptUnpack := v } rest
           | "createDestPath" => do
               let v ← maybeEmitBoolExpr fuel scope c.args
               emitCopyOptionsAux fuel scope op { cp with createDestPath := v } rest
           | "allowWildcards" => do
               let v ← maybeEmitBoolExpr fuel scope c.args
               emitCopyOptionsAux fuel scope op { cp with allowWildcard := v } rest
           | "allowEmptyWildcard" => do
               let v ← maybeEmitBoolExpr fuel scope c.args
               emitCopyOptionsAux fuel scope op { cp with allowEmptyWildcard := v } rest
           | "chown" => do
               let owner ← emitStringExpr fuel scope (← liftE (getArg c.args 0))
               let (cp2, opts) ← emitCopyOptionsAux fuel scope op cp rest
               EmitM.pure (cp2, OptItem.withUser owner :: opts)
           | "createdTime" => do
               let v ← emitStringExpr fuel scope (← liftE (getArg c.args 0))
               let t ← liftE (parseCreatedTime v)
               let (cp2, opts) ← emitCopyOptionsAux fuel scope op cp rest
               EmitM.pure (cp2, OptItem.withCreatedTime t :: opts)
           | _ => do
               let iopts ← emitOptionExpr fuel scope c op (Expr.ident c.func)
               let (cp2, opts) ← emitCopyOptionsAux fuel scope op cp rest
               EmitM.pure (cp2, iopts ++ opts))
      | _ => emitCopyOptionsAux fuel scope op cp rest

/-- emitCopyOptions: boolean flags mutate the CopyInfo struct, which is
prepended to the collected options. -/
def emitCopyOptions : Nat → Scope → String → List Stmt → EmitM (List OptItem)
  | 0, _, _, _ => EmitM.throw .outOfFuel
  | fuel + 1, scope, op, stmts => do
      let (cp, opts) ← emitCopyOptionsAux fuel scope op {} stmts
      EmitM.pure (OptItem.copyInfo cp :: opts)

/-- emitExecOptions: the option builtins of run. Each statement first
evaluates its own with-options. Unknown network and security strings panic. -/
def emitExecOptions : Nat → Scope → String → List Stmt → EmitM (List OptItem)
  | 0, _, _, _ => EmitM.throw .outOfFuel
  | _ + 1, _, _, [] => EmitM.pure []
  | fuel + 1, scope, op, stmt :: rest =>
      match stmt with
      | .call c => do
          let iopts ← emitWithOption fuel scope c c.withOpt
          (match c.func with
           | "readonlyRootfs" => do
               let v ← maybeEmitBoolExpr fuel scope c.args
               let opts ← emitExecOptions fuel scope op rest
               EmitM.pure ((if v then [OptItem.runReadonlyRootfs] else []) ++ opts)
           | "env" => do
               let key ← emitStringExpr fuel scope (← liftE (getArg c.args 0))
               let value ← emitStringExpr fuel scope (← liftE (getArg c.args 1))
               let opts ← emitExecOptions fuel scope op rest
               EmitM.pure (OptItem.runEnv key value :: opts)
           | "dir" => do
               let path ← emitStringExpr fuel scope (← liftE (getArg c.args 0))
               let opts ← emitExecOptions fuel scope op rest
               EmitM.pure (OptItem.runDir path :: opts)
           | "user" => do
               let name ← emitStringExpr fuel scope (← liftE (getArg c.args 0))
               let opts ← emitExecOptions fuel scope op rest
               EmitM.pure (OptItem.runUser name :: opts)
           | "network" => do
               let mode ← emitStringExpr fuel scope (← liftE (getArg c.args 0))
               let netMode ←
                 if mode = "unset" then EmitM.pure NetMode.unset
                 else if mode = "host" then EmitM.pure NetMode.host
                 else if mode = "node" then EmitM.pure NetMode.none
                 else EmitM.throw (.goPanic "unknown network mode")
               let opts ← emitExecOptions fuel scope op rest
               EmitM.pure (OptItem.runNetwork netMode :: opts)
           | "security" => do
               let mode ← emitStringExpr fuel scope (← liftE (getArg c.args 0))
               let securityMode ←
                 if mode = "sandbox" then EmitM.pure SecurityMode.sandbox
                 else if mode = "insecure" then EmitM.pure SecurityMode.insecure
                 else EmitM.throw (.goPanic "unknown network mode")
               let opts ← emitExecOptions fuel scope op rest
               EmitM.pure (OptItem.runSecurity securityMode :: opts)
           | "host" => do
               let host ← emitStringExpr fuel scope (← liftE (getArg c.args 0))
               let address ← emitStringExpr fuel scope (← liftE (getArg c.args 1))
               let opts ← emitExecOptions fuel scope op rest
               EmitM.pure (OptItem.runHost host address :: opts)
           | "ssh" => do
               let opts ← emitExecOptions fuel scope op rest
               EmitM.pure (OptItem.runSSH iopts :: opts)
           | "secret" => do
               let target ← emitStringExpr fuel scope (← liftE (getArg c.args 0))
               let opts ← emitExecOptions fuel scope op rest
               EmitM.pure (OptItem.runSecret target iopts :: opts)
           | "mount" => do
               let input ← emitFilesystemExpr fuel scope (← liftE (getArg c.args 0))
               let target ← emitStringExpr fuel scope (← liftE (getArg c.args 1))
               let opts ← emitExecOptions fuel scope op rest
               EmitM.pure (OptItem.runMount target input iopts :: opts)
           | _ => do
               let iopts2 ← emitOptionExpr fuel scope c op (Expr.ident c.func)
               let opts ← emitExecOptions fuel scope op rest
               EmitM.pure (iopts2 ++ opts))
      | _ => emitExecOptions fuel scope op rest

/-- The loop of emitSSHOptions: id appends immediately; target, uid, gid and
mode update the socket-option struct, created on first use. -/
def emitSSHOptionsAux : Nat → Scope → String → Option SSHSocketOpt →
    List Stmt → EmitM (Option SSHSocketOpt × List OptItem)
  | 0, _, _, _, _ => EmitM.throw .outOfFuel
  | _ + 1, _, _, sopt, [] => EmitM.pure (sopt, [])
  | fuel + 1, scope, op, sopt, stmt :: rest =>
      match stmt with
      | .call c =>
          (match c.func with
           | "target" => do
               let target ← emitStringExpr fuel scope (← liftE (getArg c.args 0))
               emitSSHOptionsAux fuel scope op
                 (some { (sopt.getD {}) with target := target }) rest
           | "id" => do
               let id ← emitStringExpr fuel scope (← liftE (getArg c.args 0))
               let (sopt2, opts) ← emitSSHOptionsAux fuel scope op sopt rest
               EmitM.pure (sopt2, OptItem.sshID id :: opts)
           | "uid" => do
               let uid ← emitIntExpr fuel scope (← liftE (getArg c.args 0))
               emitSSHOptionsAux fuel scope op
                 (some { (sopt.getD {}) with uid := uid }) rest
           | "gid" => do
               let gid ← emitIntExpr fuel scope (← liftE (getArg c.args 0))
               emitSSHOptionsAux fuel scope op
                 (some { (sopt.getD {}) with gid := gid }) rest
           | "mode" => do
               let mode ← emitIntExpr fuel scope (← liftE (getArg c.args 0))
               emitSSHOptionsAux fuel scope op
                 (some { (sopt.getD {}) with mode := mode }) rest
           | _ => do
               let iopts ← emitOptionExpr fuel scope c op (Expr.ident c.func)
               let (sopt2, opts) ← emitSSHOptionsAux fuel scope op sopt rest
               EmitM.pure (sopt2, iopts ++ opts))
      | _ => emitSSHOptionsAux fuel scope op sopt rest

/-- emitSSHOptions: when any socket field was set, the socket option is
appended after the rest. -/
def emitSSHOptions : Nat → Scope → String → List Stmt → EmitM (List OptItem)
  | 0, _, _, _ => EmitM.throw .outOfFuel
  | fuel + 1, scope, op, stmts => do
      let (sopt, opts) ← emitSSHOptionsAux fuel scope op none stmts
      match sopt with
      | some so =>
          EmitM.pure (opts ++ [OptItem.sshSocketOpt so.target so.uid so.gid so.mode])
      | none => EmitM.pure opts

/-- The loop of emitSecretOptions. -/
def emitSecretOptionsAux : Nat → Scope → String → Option SecretOpt →
    List Stmt → EmitM (Option SecretOpt × List OptItem)
  | 0, _, _, _, _ => EmitM.throw .outOfFuel
  | _ + 1, _, _, sopt, [] => EmitM.pure (sopt, [])
  | fuel + 1, scope, op, sopt, stmt :: rest =>
      match stmt with
      | .call c =>
          (match c.func with
           | "id" => do
               let id ← emitStringExpr fuel scope (← liftE (getArg c.args 0))
               let (sopt2, opts) ← emitSecretOptionsAux fuel scope op sopt rest
               EmitM.pure (sopt2, OptItem.secretID id :: opts)
           | "uid" => do
               let uid ← emitIntExpr fuel scope (← liftE (getArg c.args 0))
               emitSecretOptionsAux fuel scope op
                 (some { (sopt.getD {}) with uid := uid }) rest
           | "gid" => do
               let gid ← emitIntExpr fuel scope (← liftE (getArg c.args 0))
               emitSecretOptionsAux fuel scope op
                 (some { (sopt.getD {}) with gid := gid }) rest
           | "mode" => do
               let mode ← emitIntExpr fuel scope (← liftE (getArg c.args 0))
               emitSecretOptionsAux fuel scope op
                 (some { (sopt.getD {}) with mode := mode }) rest
           | _ => do
               let iopts ← emitOptionExpr fuel scope c op (Expr.ident c.func)
               let (sopt2, opts) ← emitSecretOptionsAux fuel scope op sopt rest
               EmitM.pure (sopt2, iopts ++ opts))
      | _ => emitSecretOptionsAux fuel scope op sopt rest

/-- emitSecretOptions: when any file field was set, the file option is
appended after the rest. -/
def emitSecretOptions : Nat → Scope → String → List Stmt → EmitM (List OptItem)
  | 0, _, _, _ => EmitM.throw .outOfFuel
  | fuel + 1, scope, op, stmts => do
      let (sopt, opts) ← emitSecretOptionsAux fuel scope op none stmts
      match sopt with
      | some so =>
          EmitM.pure (opts ++ [OptItem.secretFileOpt so.uid so.gid so.mode])
      | none => EmitM.pure opts

/-- emitMountOptions: readonly, tmpfs, sourcePath, cache (unknown sharing
strings panic). -/
def emitMountOptions : Nat → Scope → String → List Stmt → EmitM (List OptItem)
  | 0, _, _, _ => EmitM.throw .outOfFuel
  | _ + 1, _, _, [] => EmitM.pure []
  | fuel + 1, scope, op, stmt :: rest =>
      match stmt with
      | .call c =>
          (match c.func with
           | "readonly" => do
               let v ← maybeEmitBoolExpr fuel scope c.args
               let opts ← emitMountOptions fuel scope op rest
               EmitM.pure ((if v then [OptItem.mountReadonly] else []) ++ opts)
           | "tmpfs" => do
               let v ← maybeEmitBoolExpr fuel scope c.args
               let opts ← emitMountOptions fuel scope op rest
               EmitM.pure ((if v then [OptItem.mountTmpfs] else []) ++ opts)
           | "sourcePath" => do
               let path ← emitStringExpr fuel scope (← liftE (getArg c.args 0))
               let opts ← emitMountOptions fuel scope op rest
               EmitM.pure (OptItem.mountSourcePath path :: opts)
           | "cache" => do
               let id ← emitStringExpr fuel scope (← liftE (getArg c.args 0))
               let mode ← emitStringExpr fuel scope (← liftE (getArg c.args 1))
               let sharing ←
                 if mode = "shared" then EmitM.pure CacheSharingMode.shared
                 else if mode = "private" then EmitM.pure CacheSharingMode.privateMode
                 else if mode = "locked" then EmitM.pure CacheSharingMode.locked
                 else EmitM.throw (.goPanic "unknown sharing mode")
               let opts ← emitMountOptions fuel scope op rest
               EmitM.pure (OptItem.mountCache id sharing :: opts)
           | _ => do
               let iopts ← emitOptionExpr fuel scope c op (Expr.ident c.func)
               let opts ← emitMountOptions fuel scope op rest
               EmitM.pure (iopts ++ opts))
      | _ => emitMountOptions fuel scope op rest

/-- Modelled from the spec: argument evaluation at type string (emitStringExpr
is repository code outside src/). A string literal is its value; an identifier
resolving to a parameter returns its bound value, one resolving to a function
declaration invokes it as a nullary call; a block literal evaluates its body
as a string block. -/
def emitStringExpr : Nat → Scope → Expr → EmitM String
  | 0, _, _ => EmitM.throw .outOfFuel
  | fuel + 1, scope, expr =>
      match expr with
      | .ident name =>
          (match scope.lookup name with
           | none => EmitM.throw (.goPanic "nil pointer dereference")
           | some obj =>
               match obj.node with
               | .funcDecl fd => do
                   let v ← censorAliases
                     (emitFuncDecl fuel scope fd (CallStmt.mk name [] none none) "")
                   liftE v.asStr
               | .fieldNode _ => liftE obj.data.asStr
               | _ => EmitM.throw (.goPanic "unknown obj kind"))
      | .basicLit (.str s) => EmitM.pure s
      | .basicLit _ => EmitM.throw (.goPanic "interface conversion")
      | .funcLit lit => emitStringBlock fuel scope (NonEmptyStmts (some lit.body))

/-- Modelled from the spec: argument evaluation at type int. Block literals of
type int are unimplemented in the source. -/
def emitIntExpr : Nat → Scope → Expr → EmitM Int
  | 0, _, _ => EmitM.throw .outOfFuel
  | fuel + 1, scope, expr =>
      match expr with
      | .ident name =>
          (match scope.lookup name with
           | none => EmitM.throw (.goPanic "nil pointer dereference")
           | some obj =>
               match obj.node with
               | .funcDecl fd => do
                   let v ← censorAliases
                     (emitFuncDecl fuel scope fd (CallStmt.mk name [] none none) "")
                   liftE v.asInt
               | .fieldNode _ => liftE obj.data.asInt
               | _ => EmitM.throw (.goPanic "unknown obj kind"))
      | .basicLit (.decimal v) => EmitM.pure v
      | .basicLit (.numeric v _) => EmitM.pure v
      | .basicLit _ => EmitM.throw (.goPanic "interface conversion")
      | .funcLit _ => EmitM.throw (.goPanic "unimplemented")

/-- Modelled from the spec: argument evaluation at type bool. -/
def emitBoolExpr : Nat → Scope → Expr → EmitM Bool
  | 0, _, _ => EmitM.throw .outOfFuel
  | fuel + 1, scope, expr =>
      match expr with
      | .ident name =>
          (match scope.lookup name with
           | none => EmitM.throw (.goPanic "nil pointer dereference")
           | some obj =>
               match obj.node with
               | .funcDecl fd => do
                   let v ← censorAliases
                     (emitFuncDecl fuel scope fd (CallStmt.mk name [] none none) "")
                   liftE v.asBool
               | .fieldNode _ => liftE obj.data.asBool
               | _ => EmitM.throw (.goPanic "unknown obj kind"))
      | .basicLit (.bool b) => EmitM.pure b
      | .basicLit _ => EmitM.throw (.goPanic "interface conversion")
      | .funcLit _ => EmitM.throw (.goPanic "unimplemented")

/-- maybeEmitBoolExpr: an optional boolean argument defaulting to true. -/
def maybeEmitBoolExpr : Nat → Scope → List Expr → EmitM Bool
  | 0, _, _ => EmitM.throw .outOfFuel
  | fuel + 1, scope, args =>
      match args with
      | [] => EmitM.pure true
      | arg :: _ => emitBoolExpr fuel scope arg

/-- Modelled from the spec: argument evaluation at type fs. An identifier may
resolve to a parameter, a function declaration (nullary call) or an alias
declaration (captured value); a block literal evaluates its body as a
filesystem block with the current alias callback. -/
def emitFilesystemExpr : Nat → Scope → Expr → EmitM FS
  | 0, _, _ => EmitM.throw .outOfFuel
  | fuel + 1, scope, expr =>
      match expr with
      | .ident name =>
          (match scope.lookup name with
           | none => EmitM.throw (.goPanic "nil pointer dereference")
           | some obj =>
               match obj.node with
               | .funcDecl fd => do
                   let v ← censorAliases
                     (emitFuncDecl fuel scope fd (CallStmt.mk name [] none none) "")
                   liftE v.asFS
               | .aliasDecl ident fn _ => do
                   let v ← emitAliasDecl fuel scope ident fn
                     (CallStmt.mk name [] none none)
                   liftE v.asFS
               | .fieldNode _ => liftE obj.data.asFS
               | _ => EmitM.throw (.goPanic "unknown obj kind"))
      | .basicLit _ => EmitM.throw (.goPanic "interface conversion")
      | .funcLit lit => emitFilesystemBlock fuel scope (NonEmptyStmts (some lit.body))

/-- Modelled from the spec: evaluation of an option expression (the fallback
branch of the option emitters and with-identifiers): a parameter or
pre-evaluated binding yields its option list, a function declaration of
option type is invoked with the current operation kind. -/
def emitOptionExpr : Nat → Scope → CallStmt → String → Expr → EmitM (List OptItem)
  | 0, _, _, _, _ => EmitM.throw .outOfFuel
  | fuel + 1, scope, call, op, expr =>
      match expr with
      | .ident name =>
          (match scope.lookup name with
           | none => EmitM.throw (.goPanic name)
           | some obj =>
               match obj.node with
               | .funcDecl fd => do
                   let v ← censorAliases (emitFuncDecl fuel scope fd call op)
                   liftE v.asOpts
               | .fieldNode _ => liftE obj.data.asOpts
               | _ => EmitM.throw (.goPanic "unknown obj kind"))
      | .basicLit _ => EmitM.throw (.goPanic "interface conversion")
      | .funcLit lit => emitOptions fuel scope op (NonEmptyStmts (some lit.body))

/-- The parameter binding of a user-function call: build the scope objects
binding each parameter name to the evaluated argument of its declared type; a
variadic parameter takes all remaining arguments. Modelled from the spec:
"a child scope whose parameters are bound to the call's already-evaluated
arguments". -/
def bindParams : Nat → Scope → List Field → List Expr → EmitM (List (String × Obj))
  | 0, _, _, _ => EmitM.throw .outOfFuel
  | _ + 1, _, [], _ => EmitM.pure []
  | fuel + 1, scope, f :: fs, args =>
      if f.variadic then do
        let vs ← args.mapM (fun arg => emitExprAs fuel scope f.typ.principal arg)
        EmitM.pure [(f.name, { kind := .field, node := .fieldNode f,
                               data := Value.list vs })]
      else
        match args with
        | [] => EmitM.throw (.goPanic "index out of range")
        | arg :: restArgs => do
            let v ← emitExprAs fuel scope f.typ.principal arg
            let objs ← bindParams fuel scope fs restArgs
            EmitM.pure ((f.name, { kind := .field, node := .fieldNode f,
                                   data := v }) :: objs)

/-- Evaluate an argument expression at a declared parameter type. -/
def emitExprAs : Nat → Scope → PrimType → Expr → EmitM Value
  | 0, _, _, _ => EmitM.throw .outOfFuel
  | fuel + 1, scope, typ, arg =>
      match typ with
      | .str => do
          let s ← emitStringExpr fuel scope arg
          EmitM.pure (.str s)
      | .int => do
          let v ← emitIntExpr fuel scope arg
          EmitM.pure (.int v)
      | .bool => do
          let b ← emitBoolExpr fuel scope arg
          EmitM.pure (.bool b)
      | .fs => do
          let st ← emitFilesystemExpr fuel scope arg
          EmitM.pure (.fs st)
      | .option => do
          let l ← emitOptionExpr fuel scope (CallStmt.mk "" [] none none) "" arg
          EmitM.pure (.opts l)

/-- Modelled from the spec: user-function invocation (emitFuncDecl is
repository code outside src/). Arguments are evaluated in the caller scope
and bound to the parameters in a frame over the file scope (the binder links
a FuncDecl scope to the file scope); the body then runs under the block
protocol at the declared return type. An option-typed declaration evaluates
its body as options of the caller operation (or its own sub-kind). -/
def emitFuncDecl : Nat → Scope → FuncDecl → CallStmt → String → EmitM Value
  | 0, _, _, _, _ => EmitM.throw .outOfFuel
  | fuel + 1, scope, fn, call, op => do
      let frame ← bindParams fuel scope fn.params call.args
      let bodyScope := Scope.frame frame scope.root
      match fn.typ.principal with
      | .fs => emitBlock fuel bodyScope .fs (NonEmptyStmts fn.body)
      | .str => emitBlock fuel bodyScope .str (NonEmptyStmts fn.body)
      | .option => do
          let l ← emitOptions fuel bodyScope
            (if op.isEmpty then (fn.typ.sub.getD "") else op)
            (NonEmptyStmts fn.body)
          EmitM.pure (.opts l)
      | _ => EmitM.throw (.goPanic "unimplemented")

/-- Modelled from the spec: alias-target evaluation (emitAliasDecl is
repository code outside src/). The enclosing function runs with a callback
capturing the value at the aliased statement (alias names are unique in the
file scope, so the Go pointer comparison is name comparison here); the last
captured value is returned, the nil interface when the callback never fired.
The capture callback forwards nothing to the outer callback. -/
def emitAliasDecl : Nat → Scope → String → FuncDecl → CallStmt → EmitM Value
  | 0, _, _, _, _ => EmitM.throw .outOfFuel
  | fuel + 1, scope, ident, fn, call => fun s =>
      match emitFuncDecl fuel scope fn call "" s with
      | .error e => .error e
      | .ok (_, s1, evs) =>
          match (evs.filter fun p => p.1.aliasName = some ident).getLast? with
          | some p => .ok (p.2, s1, [])
          | none => .ok (.nilV, s1, [])

end

/-- Modelled from the spec: emitFilesystemFuncDecl wraps emitFuncDecl with the
type assertion to a filesystem state. -/
def emitFilesystemFuncDecl (fuel : Nat) (scope : Scope) (fn : FuncDecl)
    (call : CallStmt) : EmitM FS :=
  match fuel with
  | 0 => EmitM.throw .outOfFuel
  | fuel + 1 => do
      let v ← emitFuncDecl fuel scope fn call ""
      liftE v.asFS

/-- Modelled from the spec: emitFilesystemAliasDecl wraps emitAliasDecl with
the type assertion to a filesystem state. -/
def emitFilesystemAliasDecl (fuel : Nat) (scope : Scope) (ident : String)
    (fn : FuncDecl) (call : CallStmt) : EmitM FS :=
  match fuel with
  | 0 => EmitM.throw .outOfFuel
  | fuel + 1 => do
      let v ← emitAliasDecl fuel scope ident fn call
      liftE v.asFS

/-- CodeGenInfo as returned to the caller: the locals table (and the debug
log of the default no-op debugger). -/
structure GenInfo where
  locals : List (Nat × String)
  debugLog : List DebugEvent
deriving Repr

/-- `parser.File` as the evaluator consumes it: the scope filled in by the
binder. -/
structure File where
  scope : Scope
deriving Repr

/-- Generate: look up the target in the file scope. An unresolved name is an
"unknown target" error; a resolved binding that is not a declaration is
ErrInvalidTarget; a FuncDecl or AliasDecl whose (enclosing) return type is not
fs is ErrInvalidTarget; a declaration of any other form falls through the
switch and returns the scratch default with no error. The debug hook runs on
the file before evaluation. -/
def Generate (fuel : Nat) (call : CallStmt) (file : File) :
    Except EmitErr (FS × GenInfo) :=
  let s0 : EmitState := {}
  match file.scope.lookup call.func with
  | none => .error (.unknownTarget call.func)
  | some obj =>
      let s1 := { s0 with debugLog := s0.debugLog ++ [DebugEvent.atFile] }
      match obj.kind with
      | .decl =>
          (match obj.node with
           | .funcDecl fd =>
               if fd.typ.principal ≠ .fs then .error (.invalidTarget call.func)
               else
                 match censorAliases (emitFilesystemFuncDecl fuel file.scope fd call) s1 with
                 | .error e => .error e
                 | .ok (st, s2, _) => .ok (st, ⟨s2.locals, s2.debugLog⟩)
           | .aliasDecl ident fn _ =>
               if fn.typ.principal ≠ .fs then .error (.invalidTarget call.func)
               else
                 match emitFilesystemAliasDecl fuel file.scope ident fn call s1 with
                 | .error e => .error e
                 | .ok (st, s2, _) => .ok (st, ⟨s2.locals, s2.debugLog⟩)
           | _ => .ok (FS.scratch, ⟨s1.locals, s1.debugLog⟩))
      | _ => .error (.invalidTarget call.func)

/-! ## State evolution of the evaluator

The locals table only grows, by entries keyed with the fresh-id counter at
allocation time; the counter never decreases. This section proves that every
evaluator function preserves that contract, which gives the distinctness of
local identifiers within one Generate invocation (claim C7). -/

/-- The state evolution contract of one evaluator computation: the fresh-id
counter never decreases, and the locals table grows only at the end, by
entries whose identifiers are pairwise distinct and lie between the starting
and final counter values. -/
def StepOK (s s2 : EmitState) : Prop :=
  s.nextId ≤ s2.nextId ∧
  ∃ new, s2.locals = s.locals ++ new ∧
    (new.map Prod.fst).Nodup ∧
    ∀ id ∈ new.map Prod.fst, s.nextId ≤ id ∧ id < s2.nextId

theorem StepOK.refl (s : EmitState) : StepOK s s :=
  ⟨le_refl _, [], by simp, by simp, by simp⟩

theorem StepOK.trans {s1 s2 s3 : EmitState} (h1 : StepOK s1 s2)
    (h2 : StepOK s2 s3) : StepOK s1 s3 := by
  obtain ⟨hle1, new1, heq1, hnd1, hb1⟩ := h1
  obtain ⟨hle2, new2, heq2, hnd2, hb2⟩ := h2
  refine ⟨le_trans hle1 hle2, new1 ++ new2,
    by rw [heq2, heq1, List.append_assoc], ?_, ?_⟩
  · rw [List.map_append]
    refine List.Nodup.append hnd1 hnd2 ?_
    intro id hid1 hid2
    have := (hb1 id hid1).2
    have := (hb2 id hid2).1
    omega
  · intro id hid
    rw [List.map_append, List.mem_append] at hid
    rcases hid with h | h
    · have := hb1 id h
      omega
    · have := hb2 id h
      omega

/-- A computation preserves the state contract on every success. -/
def Pres (m : EmitM α) : Prop :=
  ∀ s a s2 ev, m s = .ok (a, s2, ev) → StepOK s s2

theorem Pres.mk {m : EmitM α}
    (h : ∀ s a s2 ev, m s = .ok (a, s2, ev) → StepOK s s2) : Pres m := h

theorem Pres.elim {m : EmitM α} (hm : Pres m) {s a s2 ev}
    (h : m s = .ok (a, s2, ev)) : StepOK s s2 := hm s a s2 ev h

theorem Pres.pure (a : α) : Pres (EmitM.pure a) := by
  intro s b s2 ev h
  simp only [EmitM.pure, Except.ok.injEq] at h
  obtain ⟨rfl, rfl, rfl⟩ := h
  exact StepOK.refl s

theorem Pres.throw (e : EmitErr) : Pres (EmitM.throw (α := α) e) := by
  intro s b s2 ev h
  simp [EmitM.throw] at h

theorem Pres.bind {m : EmitM α} {f : α → EmitM β} (hm : Pres m)
    (hf : ∀ a, Pres (f a)) : Pres (m >>= f) := by
  intro s b s2 ev h
  simp only [Bind.bind, EmitM.bind] at h
  cases hms : m s with
  | error e => simp [hms] at h
  | ok p =>
      obtain ⟨a, s1, ev1⟩ := p
      simp only [hms] at h
      cases hfs : f a s1 with
      | error e => simp [hfs] at h
      | ok q =>
          obtain ⟨b2, s3, ev2⟩ := q
          simp only [hfs, Except.ok.injEq] at h
          obtain ⟨rfl, rfl, rfl⟩ := h
          exact StepOK.trans (hm _ _ _ _ hms) (hf a _ _ _ _ hfs)

theorem Pres.liftE (x : Except EmitErr α) : Pres (liftE x) := by
  intro s a s2 ev h
  cases x with
  | error e => simp [Hlb.liftE] at h
  | ok v =>
      simp only [Hlb.liftE, Except.ok.injEq] at h
      obtain ⟨rfl, rfl, rfl⟩ := h
      exact StepOK.refl s

theorem Pres.censorAliases {m : EmitM α} (hm : Pres m) :
    Pres (censorAliases m) := by
  intro s a s2 ev h
  simp only [Hlb.censorAliases] at h
  cases hms : m s with
  | error e => simp [hms] at h
  | ok p =>
      obtain ⟨a1, s1, ev1⟩ := p
      simp only [hms, Except.ok.injEq] at h
      obtain ⟨rfl, rfl, rfl⟩ := h
      exact hm _ _ _ _ hms

theorem Pres.tellAlias (c : CallStmt) (v : Value) : Pres (tellAlias c v) := by
  intro s a s2 ev h
  simp only [Hlb.tellAlias, Except.ok.injEq] at h
  obtain ⟨rfl, rfl, rfl⟩ := h
  exact StepOK.refl s

theorem Pres.tellAliases (evs : List AEvent) : Pres (tellAliases evs) := by
  intro s a s2 ev h
  simp only [Hlb.tellAliases, Except.ok.injEq] at h
  obtain ⟨rfl, rfl, rfl⟩ := h
  exact StepOK.refl s

theorem Pres.logDebug (e : DebugEvent) : Pres (logDebug e) := by
  intro s a s2 ev h
  simp only [Hlb.logDebug, Except.ok.injEq] at h
  obtain ⟨rfl, rfl, rfl⟩ := h
  exact ⟨le_refl _, [], by simp, by simp, by simp⟩

theorem Pres.allocLocal (path : String) : Pres (allocLocal path) := by
  intro s a s2 ev h
  simp only [Hlb.allocLocal, Except.ok.injEq] at h
  obtain ⟨rfl, rfl, rfl⟩ := h
  exact ⟨by simp, [(s.nextId, path)], by simp, by simp, by simp⟩

theorem Pres.mapMLoop {f : γ → EmitM β} (hf : ∀ x, Pres (f x)) :
    ∀ (l : List γ) (acc : List β), Pres (List.mapM.loop f l acc) := by
  intro l
  induction l with
  | nil => intro acc; exact Pres.pure _
  | cons x xs ihl =>
      intro acc
      simp only [List.mapM.loop]
      exact Pres.bind (hf x) fun y => ihl _

theorem Pres.mapM {f : γ → EmitM β} (hf : ∀ x, Pres (f x)) (l : List γ) :
    Pres (l.mapM f) := Pres.mapMLoop hf l []

theorem Pres.emitBlockSkip (v : Value) (stmts : List Stmt) :
    Pres (emitBlockSkip v stmts) := by
  induction stmts with
  | nil => exact Pres.pure _
  | cons stmt rest ihs =>
      match stmt with
      | .call c =>
          simp only [Hlb.emitBlockSkip]
          split
          · exact Pres.bind (Pres.logDebug _) fun _ => ihs
          · exact Pres.pure _
      | .newline => exact Pres.throw _
      | .doc => exact Pres.throw _

theorem Pres.aliasDeclStep {n : Nat}
    (ihF : ∀ scope fn call op, Pres (emitFuncDecl n scope fn call op)) :
    ∀ scope ident fn call, Pres (emitAliasDecl (n + 1) scope ident fn call) := by
  intro scope ident fn call
  apply Pres.mk
  intro s a s2 ev h
  simp only [emitAliasDecl] at h
  cases hf : emitFuncDecl n scope fn call "" s with
  | error e => simp [hf] at h
  | ok p =>
      obtain ⟨v, s1, evs⟩ := p
      simp only [hf] at h
      split at h <;>
        (simp only [Except.ok.injEq] at h
         obtain ⟨rfl, rfl, rfl⟩ := h
         exact (ihF _ _ _ _).elim hf)

attribute [irreducible] Pres

/-- The preservation statements of every mutually recursive evaluator
function at a given fuel. -/
structure PresAll (n : Nat) : Prop where
  block : ∀ scope typ stmts, Pres (emitBlock n scope typ stmts)
  blockRest : ∀ scope typ v stmts, Pres (emitBlockRest n scope typ v stmts)
  chainStmt : ∀ scope typ call, Pres (emitChainStmt n scope typ call)
  fsBlock : ∀ scope stmts, Pres (emitFilesystemBlock n scope stmts)
  strBlock : ∀ scope stmts, Pres (emitStringBlock n scope stmts)
  funcLit : ∀ scope lit op, Pres (emitFuncLit n scope lit op)
  sourceStmt : ∀ scope typ call, Pres (emitSourceStmt n scope typ call)
  fsSourceStmt : ∀ scope call, Pres (emitFilesystemSourceStmt n scope call)
  strSourceStmt : ∀ scope call, Pres (emitStringSourceStmt n scope call)
  withOption : ∀ scope parent w, Pres (emitWithOption n scope parent w)
  runScan : ∀ scope stmts, Pres (emitRunMountScan n scope stmts)
  fsChainStmt : ∀ scope call, Pres (emitFilesystemChainStmt n scope call)
  options : ∀ scope op stmts, Pres (emitOptions n scope op stmts)
  imageOptions : ∀ scope op stmts, Pres (emitImageOptions n scope op stmts)
  httpOptions : ∀ scope op stmts, Pres (emitHTTPOptions n scope op stmts)
  gitOptions : ∀ scope op stmts, Pres (emitGitOptions n scope op stmts)
  localOptions : ∀ scope op stmts, Pres (emitLocalOptions n scope op stmts)
  generateOptions : ∀ scope op stmts, Pres (emitGenerateOptions n scope op stmts)
  mkdirOptions : ∀ scope op stmts, Pres (emitMkdirOptions n scope op stmts)
  mkfileOptions : ∀ scope op stmts, Pres (emitMkfileOptions n scope op stmts)
  rmOptions : ∀ scope op stmts, Pres (emitRmOptions n scope op stmts)
  copyOptionsAux : ∀ scope op cp stmts, Pres (emitCopyOptionsAux n scope op cp stmts)
  copyOptions : ∀ scope op stmts, Pres (emitCopyOptions n scope op stmts)
  execOptions : ∀ scope op stmts, Pres (emitExecOptions n scope op stmts)
  sshOptionsAux : ∀ scope op sopt stmts, Pres (emitSSHOptionsAux n scope op sopt stmts)
  sshOptions : ∀ scope op stmts, Pres (emitSSHOptions n scope op stmts)
  secretOptionsAux : ∀ scope op sopt stmts, Pres (emitSecretOptionsAux n scope op sopt stmts)
  secretOptions : ∀ scope op stmts, Pres (emitSecretOptions n scope op stmts)
  mountOptions : ∀ scope op stmts, Pres (emitMountOptions n scope op stmts)
  strExpr : ∀ scope e, Pres (emitStringExpr n scope e)
  intExpr : ∀ scope e, Pres (emitIntExpr n scope e)
  boolExpr : ∀ scope e, Pres (emitBoolExpr n scope e)
  maybeBool : ∀ scope args, Pres (maybeEmitBoolExpr n scope args)
  fsExpr : ∀ scope e, Pres (emitFilesystemExpr n scope e)
  optExpr : ∀ scope call op e, Pres (emitOptionExpr n scope call op e)
  bindP : ∀ scope fields args, Pres (bindParams n scope fields args)
  exprAs : ∀ scope typ e, Pres (emitExprAs n scope typ e)
  funcDecl : ∀ scope fn call op, Pres (emitFuncDecl n scope fn call op)
  aliasDecl : ∀ scope ident fn call, Pres (emitAliasDecl n scope ident fn call)

theorem presStep_block {n : Nat} (ih : PresAll n) :
    ∀ scope typ stmts, Pres (emitBlock (n + 1) scope typ stmts) := by
  intro scope typ stmts
  simp only [emitBlock]
  repeat' first
    | exact Pres.pure _
    | exact Pres.throw _
    | exact Pres.liftE _
    | exact Pres.logDebug _
    | exact Pres.tellAlias _ _
    | exact Pres.emitBlockSkip _ _
    | exact ih.sourceStmt _ _ _
    | exact ih.blockRest _ _ _ _
    | apply Pres.bind
    | split
    | intro a

theorem presStep_blockRest {n : Nat} (ih : PresAll n) :
    ∀ scope typ v stmts, Pres (emitBlockRest (n + 1) scope typ v stmts) := by
  intro scope typ v stmts
  match stmts with
  | [] => exact Pres.pure _
  | stmt :: rest =>
      simp only [emitBlockRest]
      repeat' first
        | exact Pres.pure _
        | exact Pres.throw _
        | exact Pres.liftE _
        | exact Pres.logDebug _
        | exact Pres.tellAlias _ _
        | exact Pres.tellAliases _
        | exact ih.chainStmt _ _ _
        | exact ih.blockRest _ _ _ _
        | apply Pres.bind
        | split
        | intro a

theorem presStep_chainStmt {n : Nat} (ih : PresAll n) :
    ∀ scope typ call, Pres (emitChainStmt (n + 1) scope typ call) := by
  intro scope typ call
  simp only [emitChainStmt]
  repeat' first
    | exact Pres.pure _
    | exact Pres.throw _
    | exact ih.fsChainStmt _ _
    | apply Pres.bind
    | split
    | intro a

theorem presStep_fsBlock {n : Nat} (ih : PresAll n) :
    ∀ scope stmts, Pres (emitFilesystemBlock (n + 1) scope stmts) := by
  intro scope stmts
  simp only [emitFilesystemBlock]
  exact Pres.bind (ih.block _ _ _) fun v => Pres.liftE _

theorem presStep_strBlock {n : Nat} (ih : PresAll n) :
    ∀ scope stmts, Pres (emitStringBlock (n + 1) scope stmts) := by
  intro scope stmts
  simp only [emitStringBlock]
  exact Pres.bind (Pres.censorAliases (ih.block _ _ _)) fun v => Pres.liftE _

theorem presStep_funcLit {n : Nat} (ih : PresAll n) :
    ∀ scope lit op, Pres (emitFuncLit (n + 1) scope lit op) := by
  intro scope lit op
  simp only [emitFuncLit]
  repeat' first
    | exact Pres.pure _
    | exact Pres.throw _
    | exact ih.fsBlock _ _
    | exact ih.strBlock _ _
    | exact ih.options _ _ _
    | apply Pres.bind
    | split
    | intro a

theorem presStep_sourceStmt {n : Nat} (ih : PresAll n) :
    ∀ scope typ call, Pres (emitSourceStmt (n + 1) scope typ call) := by
  intro scope typ call
  simp only [emitSourceStmt]
  repeat' first
    | exact Pres.pure _
    | exact Pres.throw _
    | exact ih.fsSourceStmt _ _
    | exact ih.strSourceStmt _ _
    | exact ih.aliasDecl _ _ _ _
    | exact Pres.censorAliases (ih.funcDecl _ _ _ _)
    | apply Pres.bind
    | split
    | intro a

theorem presStep_fsSourceStmt {n : Nat} (ih : PresAll n) :
    ∀ scope call, Pres (emitFilesystemSourceStmt (n + 1) scope call) := by
  intro scope call
  simp only [emitFilesystemSourceStmt]
  repeat' first
    | exact Pres.pure _
    | exact Pres.throw _
    | exact Pres.liftE _
    | exact Pres.allocLocal _
    | exact ih.withOption _ _ _
    | exact ih.strExpr _ _
    | exact ih.fsExpr _ _
    | apply Pres.bind
    | split
    | intro a

theorem presStep_strSourceStmt {n : Nat} (ih : PresAll n) :
    ∀ scope call, Pres (emitStringSourceStmt (n + 1) scope call) := by
  intro scope call
  simp only [emitStringSourceStmt]
  repeat' first
    | exact Pres.pure _
    | exact Pres.throw _
    | exact Pres.liftE _
    | exact ih.strExpr _ _
    | apply Pres.mapM
    | apply Pres.bind
    | split
    | intro a

theorem presStep_withOption {n : Nat} (ih : PresAll n) :
    ∀ scope parent w, Pres (emitWithOption (n + 1) scope parent w) := by
  intro scope parent w
  simp only [emitWithOption]
  repeat' first
    | exact Pres.pure _
    | exact Pres.throw _
    | exact Pres.liftE _
    | exact ih.options _ _ _
    | apply Pres.bind
    | split
    | intro a

theorem presStep_runScan {n : Nat} (ih : PresAll n) :
    ∀ scope stmts, Pres (emitRunMountScan (n + 1) scope stmts) := by
  intro scope stmts
  match stmts with
  | [] => exact Pres.pure _
  | stmt :: rest =>
      simp only [emitRunMountScan]
      repeat' first
        | exact Pres.pure _
        | exact Pres.throw _
        | exact Pres.liftE _
        | exact ih.strExpr _ _
        | exact ih.runScan _ _
        | apply Pres.bind
        | split
        | intro a

theorem presStep_fsChainStmt {n : Nat} (ih : PresAll n) :
    ∀ scope call, Pres (emitFilesystemChainStmt (n + 1) scope call) := by
  intro scope call
  simp only [emitFilesystemChainStmt]
  repeat' first
    | exact Pres.pure _
    | exact Pres.throw _
    | exact Pres.liftE _
    | exact ih.withOption _ _ _
    | exact ih.strExpr _ _
    | exact ih.intExpr _ _
    | exact ih.fsExpr _ _
    | exact ih.runScan _ _
    | apply Pres.mapM
    | apply Pres.bind
    | split
    | intro a

theorem presStep_options {n : Nat} (ih : PresAll n) :
    ∀ scope op stmts, Pres (emitOptions (n + 1) scope op stmts) := by
  intro scope op stmts
  simp only [emitOptions]
  repeat' first
    | exact Pres.throw _
    | exact ih.imageOptions _ _ _
    | exact ih.httpOptions _ _ _
    | exact ih.gitOptions _ _ _
    | exact ih.localOptions _ _ _
    | exact ih.generateOptions _ _ _
    | exact ih.execOptions _ _ _
    | exact ih.sshOptions _ _ _
    | exact ih.secretOptions _ _ _
    | exact ih.mountOptions _ _ _
    | exact ih.mkdirOptions _ _ _
    | exact ih.mkfileOptions _ _ _
    | exact ih.rmOptions _ _ _
    | exact ih.copyOptions _ _ _
    | split

theorem presStep_imageOptions {n : Nat} (ih : PresAll n) :
    ∀ scope op stmts, Pres (emitImageOptions (n + 1) scope op stmts) := by
  intro scope op stmts
  match stmts with
  | [] => exact Pres.pure _
  | stmt :: rest =>
      simp only [emitImageOptions]
      repeat' first
        | exact Pres.pure _
        | exact Pres.throw _
        | exact Pres.liftE _
        | exact ih.maybeBool _ _
        | exact ih.optExpr _ _ _ _
        | exact ih.imageOptions _ _ _
        | apply Pres.bind
        | split
        | intro a

theorem presStep_httpOptions {n : Nat} (ih : PresAll n) :
    ∀ scope op stmts, Pres (emitHTTPOptions (n + 1) scope op stmts) := by
  intro scope op stmts
  match stmts with
  | [] => exact Pres.pure _
  | stmt :: rest =>
      simp only [emitHTTPOptions]
      repeat' first
        | exact Pres.pure _
        | exact Pres.throw _
        | exact Pres.liftE _
        | exact ih.strExpr _ _
        | exact ih.intExpr _ _
        | exact ih.optExpr _ _ _ _
        | exact ih.httpOptions _ _ _
        | apply Pres.bind
        | split
        | intro a

theorem presStep_gitOptions {n : Nat} (ih : PresAll n) :
    ∀ scope op stmts, Pres (emitGitOptions (n + 1) scope op stmts) := by
  intro scope op stmts
  match stmts with
  | [] => exact Pres.pure _
  | stmt :: rest =>
      simp only [emitGitOptions]
      repeat' first
        | exact Pres.pure _
        | exact Pres.throw _
        | exact Pres.liftE _
        | exact ih.maybeBool _ _
        | exact ih.optExpr _ _ _ _
        | exact ih.gitOptions _ _ _
        | apply Pres.bind
        | split
        | intro a

theorem presStep_localOptions {n : Nat} (ih : PresAll n) :
    ∀ scope op stmts, Pres (emitLocalOptions (n + 1) scope op stmts) := by
  intro scope op stmts
  match stmts with
  | [] => exact Pres.pure _
  | stmt :: rest =>
      simp only [emitLocalOptions]
      repeat' first
        | exact Pres.pure _
        | exact Pres.throw _
        | exact Pres.liftE _
        | exact ih.strExpr _ _
        | exact ih.optExpr _ _ _ _
        | exact ih.localOptions _ _ _
        | apply Pres.mapM
        | apply Pres.bind
        | split
        | intro a

theorem presStep_generateOptions {n : Nat} (ih : PresAll n) :
    ∀ scope op stmts, Pres (emitGenerateOptions (n + 1) scope op stmts) := by
  intro scope op stmts
  match stmts with
  | [] => exact Pres.pure _
  | stmt :: rest =>
      simp only [emitGenerateOptions]
      repeat' first
        | exact Pres.pure _
        | exact Pres.throw _
        | exact Pres.liftE _
        | exact ih.strExpr _ _
        | exact ih.fsExpr _ _
        | exact ih.optExpr _ _ _ _
        | exact ih.generateOptions _ _ _
        | apply Pres.bind
        | split
        | intro a

theorem presStep_mkdirOptions {n : Nat} (ih : PresAll n) :
    ∀ scope op stmts, Pres (emitMkdirOptions (n + 1) scope op stmts) := by
  intro scope op stmts
  match stmts with
  | [] => exact Pres.pure _
  | stmt :: rest =>
      simp only [emitMkdirOptions]
      repeat' first
        | exact Pres.pure _
        | exact Pres.throw _
        | exact Pres.liftE _
        | exact ih.maybeBool _ _
        | exact ih.strExpr _ _
        | exact ih.optExpr _ _ _ _
        | exact ih.mkdirOptions _ _ _
        | apply Pres.bind
        | split
        | intro a

theorem presStep_mkfileOptions {n : Nat} (ih : PresAll n) :
    ∀ scope op stmts, Pres (emitMkfileOptions (n + 1) scope op stmts) := by
  intro scope op stmts
  match stmts with
  | [] => exact Pres.pure _
  | stmt :: rest =>
      simp only [emitMkfileOptions]
      repeat' first
        | exact Pres.pure _
        | exact Pres.throw _
        | exact Pres.liftE _
        | exact ih.strExpr _ _
        | exact ih.optExpr _ _ _ _
        | exact ih.mkfileOptions _ _ _
        | apply Pres.bind
        | split
        | intro a

theorem presStep_rmOptions {n : Nat} (ih : PresAll n) :
    ∀ scope op stmts, Pres (emitRmOptions (n + 1) scope op stmts) := by
  intro scope op stmts
  match stmts with
  | [] => exact Pres.pure _
  | stmt :: rest =>
      simp only [emitRmOptions]
      repeat' first
        | exact Pres.pure _
        | exact Pres.throw _
        | exact Pres.liftE _
        | exact ih.maybeBool _ _
        | exact ih.optExpr _ _ _ _
        | exact ih.rmOptions _ _ _
        | apply Pres.bind
        | split
        | intro a

theorem presStep_copyOptionsAux {n : Nat} (ih : PresAll n) :
    ∀ scope op cp stmts, Pres (emitCopyOptionsAux (n + 1) scope op cp stmts) := by
  intro scope op cp stmts
  match stmts with
  | [] => exact Pres.pure _
  | stmt :: rest =>
      simp only [emitCopyOptionsAux]
      repeat' first
        | exact Pres.pure _
        | exact Pres.throw _
        | exact Pres.liftE _
        | exact ih.maybeBool _ _
        | exact ih.strExpr _ _
        | exact ih.optExpr _ _ _ _
        | exact ih.copyOptionsAux _ _ _ _
        | apply Pres.bind
        | split
        | intro a

theorem presStep_copyOptions {n : Nat} (ih : PresAll n) :
    ∀ scope op stmts, Pres (emitCopyOptions (n + 1) scope op stmts) := by
  intro scope op stmts
  simp only [emitCopyOptions]
  exact Pres.bind (ih.copyOptionsAux _ _ _ _) fun p => Pres.pure _

theorem presStep_execOptions {n : Nat} (ih : PresAll n) :
    ∀ scope op stmts, Pres (emitExecOptions (n + 1) scope op stmts) := by
  intro scope op stmts
  match stmts with
  | [] => exact Pres.pure _
  | stmt :: rest =>
      simp only [emitExecOptions]
      repeat' first
        | exact Pres.pure _
        | exact Pres.throw _
        | exact Pres.liftE _
        | exact ih.withOption _ _ _
        | exact ih.maybeBool _ _
        | exact ih.strExpr _ _
        | exact ih.fsExpr _ _
        | exact ih.optExpr _ _ _ _
        | exact ih.execOptions _ _ _
        | apply Pres.bind
        | split
        | intro a

theorem presStep_sshOptionsAux {n : Nat} (ih : PresAll n) :
    ∀ scope op sopt stmts, Pres (emitSSHOptionsAux (n + 1) scope op sopt stmts) := by
  intro scope op sopt stmts
  match stmts with
  | [] => exact Pres.pure _
  | stmt :: rest =>
      simp only [emitSSHOptionsAux]
      repeat' first
        | exact Pres.pure _
        | exact Pres.throw _
        | exact Pres.liftE _
        | exact ih.strExpr _ _
        | exact ih.intExpr _ _
        | exact ih.optExpr _ _ _ _
        | exact ih.sshOptionsAux _ _ _ _
        | apply Pres.bind
        | split
        | intro a

theorem presStep_sshOptions {n : Nat} (ih : PresAll n) :
    ∀ scope op stmts, Pres (emitSSHOptions (n + 1) scope op stmts) := by
  intro scope op stmts
  simp only [emitSSHOptions]
  repeat' first
    | exact Pres.pure _
    | exact ih.sshOptionsAux _ _ _ _
    | apply Pres.bind
    | split
    | intro a

theorem presStep_secretOptionsAux {n : Nat} (ih : PresAll n) :
    ∀ scope op sopt stmts, Pres (emitSecretOptionsAux (n + 1) scope op sopt stmts) := by
  intro scope op sopt stmts
  match stmts with
  | [] => exact Pres.pure _
  | stmt :: rest =>
      simp only [emitSecretOptionsAux]
      repeat' first
        | exact Pres.pure _
        | exact Pres.throw _
        | exact Pres.liftE _
        | exact ih.strExpr _ _
        | exact ih.intExpr _ _
        | exact ih.optExpr _ _ _ _
        | exact ih.secretOptionsAux _ _ _ _
        | apply Pres.bind
        | split
        | intro a

theorem presStep_secretOptions {n : Nat} (ih : PresAll n) :
    ∀ scope op stmts, Pres (emitSecretOptions (n + 1) scope op stmts) := by
  intro scope op stmts
  simp only [emitSecretOptions]
  repeat' first
    | exact Pres.pure _
    | exact ih.secretOptionsAux _ _ _ _
    | apply Pres.bind
    | split
    | intro a

theorem presStep_mountOptions {n : Nat} (ih : PresAll n) :
    ∀ scope op stmts, Pres (emitMountOptions (n + 1) scope op stmts) := by
  intro scope op stmts
  match stmts with
  | [] => exact Pres.pure _
  | stmt :: rest =>
      simp only [emitMountOptions]
      repeat' first
        | exact Pres.pure _
        | exact Pres.throw _
        | exact Pres.liftE _
        | exact ih.maybeBool _ _
        | exact ih.strExpr _ _
        | exact ih.optExpr _ _ _ _
        | exact ih.mountOptions _ _ _
        | apply Pres.bind
        | split
        | intro a

theorem presStep_strExpr {n : Nat} (ih : PresAll n) :
    ∀ scope e, Pres (emitStringExpr (n + 1) scope e) := by
  intro scope e
  simp only [emitStringExpr]
  repeat' first
    | exact Pres.pure _
    | exact Pres.throw _
    | exact Pres.liftE _
    | exact ih.strBlock _ _
    | exact Pres.censorAliases (ih.funcDecl _ _ _ _)
    | apply Pres.bind
    | split
    | intro a

theorem presStep_intExpr {n : Nat} (ih : PresAll n) :
    ∀ scope e, Pres (emitIntExpr (n + 1) scope e) := by
  intro scope e
  simp only [emitIntExpr]
  repeat' first
    | exact Pres.pure _
    | exact Pres.throw _
    | exact Pres.liftE _
    | exact Pres.censorAliases (ih.funcDecl _ _ _ _)
    | apply Pres.bind
    | split
    | intro a

theorem presStep_boolExpr {n : Nat} (ih : PresAll n) :
    ∀ scope e, Pres (emitBoolExpr (n + 1) scope e) := by
  intro scope e
  simp only [emitBoolExpr]
  repeat' first
    | exact Pres.pure _
    | exact Pres.throw _
    | exact Pres.liftE _
    | exact Pres.censorAliases (ih.funcDecl _ _ _ _)
    | apply Pres.bind
    | split
    | intro a

theorem presStep_maybeBool {n : Nat} (ih : PresAll n) :
    ∀ scope args, Pres (maybeEmitBoolExpr (n + 1) scope args) := by
  intro scope args
  simp only [maybeEmitBoolExpr]
  repeat' first
    | exact Pres.pure _
    | exact ih.boolExpr _ _
    | split

theorem presStep_fsExpr {n : Nat} (ih : PresAll n) :
    ∀ scope e, Pres (emitFilesystemExpr (n + 1) scope e) := by
  intro scope e
  simp only [emitFilesystemExpr]
  repeat' first
    | exact Pres.pure _
    | exact Pres.throw _
    | exact Pres.liftE _
    | exact ih.fsBlock _ _
    | exact ih.aliasDecl _ _ _ _
    | exact Pres.censorAliases (ih.funcDecl _ _ _ _)
    | apply Pres.bind
    | split
    | intro a

theorem presStep_optExpr {n : Nat} (ih : PresAll n) :
    ∀ scope call op e, Pres (emitOptionExpr (n + 1) scope call op e) := by
  intro scope call op e
  simp only [emitOptionExpr]
  repeat' first
    | exact Pres.pure _
    | exact Pres.throw _
    | exact Pres.liftE _
    | exact ih.options _ _ _
    | exact Pres.censorAliases (ih.funcDecl _ _ _ _)
    | apply Pres.bind
    | split
    | intro a

theorem presStep_bindP {n : Nat} (ih : PresAll n) :
    ∀ scope fields args, Pres (bindParams (n + 1) scope fields args) := by
  intro scope fields args
  match fields with
  | [] => exact Pres.pure _
  | f :: fs =>
      simp only [bindParams]
      repeat' first
        | exact Pres.pure _
        | exact Pres.throw _
        | exact ih.exprAs _ _ _
        | exact ih.bindP _ _ _
        | apply Pres.mapM
        | apply Pres.bind
        | split
        | intro a

theorem presStep_exprAs {n : Nat} (ih : PresAll n) :
    ∀ scope typ e, Pres (emitExprAs (n + 1) scope typ e) := by
  intro scope typ e
  simp only [emitExprAs]
  repeat' first
    | exact Pres.pure _
    | exact ih.strExpr _ _
    | exact ih.intExpr _ _
    | exact ih.boolExpr _ _
    | exact ih.fsExpr _ _
    | exact ih.optExpr _ _ _ _
    | apply Pres.bind
    | split
    | intro a

theorem presStep_funcDecl {n : Nat} (ih : PresAll n) :
    ∀ scope fn call op, Pres (emitFuncDecl (n + 1) scope fn call op) := by
  intro scope fn call op
  simp only [emitFuncDecl]
  repeat' first
    | exact Pres.pure _
    | exact Pres.throw _
    | exact ih.bindP _ _ _
    | exact ih.block _ _ _
    | exact ih.options _ _ _
    | apply Pres.bind
    | split
    | intro a

theorem presAll : ∀ n, PresAll n := by
  intro n
  induction n with
  | zero => constructor <;> (intros; exact Pres.throw _)
  | succ n ih =>
      exact ⟨presStep_block ih, presStep_blockRest ih, presStep_chainStmt ih,
             presStep_fsBlock ih, presStep_strBlock ih, presStep_funcLit ih,
             presStep_sourceStmt ih, presStep_fsSourceStmt ih,
             presStep_strSourceStmt ih, presStep_withOption ih,
             presStep_runScan ih, presStep_fsChainStmt ih, presStep_options ih,
             presStep_imageOptions ih, presStep_httpOptions ih,
             presStep_gitOptions ih, presStep_localOptions ih,
             presStep_generateOptions ih, presStep_mkdirOptions ih,
             presStep_mkfileOptions ih, presStep_rmOptions ih,
             presStep_copyOptionsAux ih, presStep_copyOptions ih,
             presStep_execOptions ih, presStep_sshOptionsAux ih,
             presStep_sshOptions ih, presStep_secretOptionsAux ih,
             presStep_secretOptions ih, presStep_mountOptions ih,
             presStep_strExpr ih, presStep_intExpr ih, presStep_boolExpr ih,
             presStep_maybeBool ih, presStep_fsExpr ih, presStep_optExpr ih,
             presStep_bindP ih, presStep_exprAs ih, presStep_funcDecl ih,
             Pres.aliasDeclStep ih.funcDecl⟩

theorem pres_fsFuncDecl (fuel : Nat) (scope : Scope) (fn : FuncDecl)
    (call : CallStmt) : Pres (emitFilesystemFuncDecl fuel scope fn call) := by
  match fuel with
  | 0 => exact Pres.throw _
  | n + 1 =>
      simp only [emitFilesystemFuncDecl]
      exact Pres.bind ((presAll n).funcDecl _ _ _ _) fun v => Pres.liftE _

theorem pres_fsAliasDecl (fuel : Nat) (scope : Scope) (ident : String)
    (fn : FuncDecl) (call : CallStmt) :
    Pres (emitFilesystemAliasDecl fuel scope ident fn call) := by
  match fuel with
  | 0 => exact Pres.throw _
  | n + 1 =>
      simp only [emitFilesystemAliasDecl]
      exact Pres.bind ((presAll n).aliasDecl _ _ _ _) fun v => Pres.liftE _

/-- The locals table Generate returns has pairwise distinct identifiers:
evaluation starts from the empty table and every allocation uses the
monotone fresh-id counter. -/
theorem Generate_locals_nodup {fuel : Nat} {call : CallStmt} {file : File}
    {st : FS} {info : GenInfo} (h : Generate fuel call file = .ok (st, info)) :
    (info.locals.map Prod.fst).Nodup := by
  unfold Generate at h
  cases hlook : file.scope.lookup call.func with
  | none => simp [hlook] at h
  | some obj =>
      simp only [hlook] at h
      obtain ⟨kind, node, data⟩ := obj
      cases kind <;> simp only at h <;> try simp at h
      cases node <;> simp only at h
      case funcDecl fd =>
        split at h
        · cases hrun : censorAliases (emitFilesystemFuncDecl fuel file.scope fd call)
              { nextId := 0, locals := [], debugLog := [DebugEvent.atFile] } with
          | error e => rw [hrun] at h; simp at h
          | ok p =>
              obtain ⟨st2, s2, ev2⟩ := p
              rw [hrun] at h
              simp only [Except.ok.injEq, Prod.mk.injEq] at h
              obtain ⟨-, hinfo⟩ := h
              have hstep := (Pres.censorAliases
                (pres_fsFuncDecl fuel file.scope fd call)).elim hrun
              obtain ⟨hle, new, heq, hnd, hb⟩ := hstep
              rw [← hinfo]
              simpa [heq] using hnd
        · simp at h
      case aliasDecl ident fn acall =>
        split at h
        · cases hrun : emitFilesystemAliasDecl fuel file.scope ident fn call
              { nextId := 0, locals := [], debugLog := [DebugEvent.atFile] } with
          | error e => rw [hrun] at h; simp at h
          | ok p =>
              obtain ⟨st2, s2, ev2⟩ := p
              rw [hrun] at h
              simp only [Except.ok.injEq, Prod.mk.injEq] at h
              obtain ⟨-, hinfo⟩ := h
              have hstep := (pres_fsAliasDecl fuel file.scope ident fn call).elim hrun
              obtain ⟨hle, new, heq, hnd, hb⟩ := hstep
              rw [← hinfo]
              simpa [heq] using hnd
        · simp at h
      case importDecl =>
        simp only [Except.ok.injEq, Prod.mk.injEq] at h
        obtain ⟨-, hinfo⟩ := h
        rw [← hinfo]
        simp
      case fieldNode f =>
        simp only [Except.ok.injEq, Prod.mk.injEq] at h
        obtain ⟨-, hinfo⟩ := h
        rw [← hinfo]
        simp

/-! ## Position discipline of parser nodes (claim C9) -/

/-- lexer.Position. -/
structure Position where
  filename : String
  offset : Int
  line : Int
  column : Int
deriving DecidableEq, Repr

/-- shiftPosition: advance offset and column by a character count and line by
a line count. -/
def shiftPosition (pos : Position) (offset : Int) (line : Int) : Position :=
  { pos with offset := pos.offset + offset, column := pos.column + offset,
             line := pos.line + line }

/-- parser.CloseBrace, reduced to its position. -/
structure CloseBrace where
  pos : Position
deriving DecidableEq, Repr

/-- CloseBrace.End: one past the brace. -/
def CloseBrace.End (b : CloseBrace) : Position := shiftPosition b.pos 1 0

/-- parser.BlockStmt, reduced to the positions claim C9 needs. -/
structure BlockStmtPos where
  pos : Position
  closeBrace : CloseBrace
deriving DecidableEq, Repr

/-- parser.FuncDecl as the grammar produces it: the body block is optional
(the struct tag of Body ends in a question mark, so a declaration without a
body parses). -/
structure FuncDeclPos where
  pos : Position
  body : Option BlockStmtPos
deriving DecidableEq, Repr

/-- FuncDecl.End returns d.Body.CloseBrace.End(): when the body is absent the
Go method dereferences a nil pointer and crashes; the crash is the none
case. -/
def FuncDeclPos.End (d : FuncDeclPos) : Option Position :=
  match d.body with
  | none => none
  | some b => some b.closeBrace.End

/-! ## The claims -/

/-- C9: the grammar makes a FuncDecl body optional, yet FuncDecl.End
dereferences the body: on a declaration without a body it crashes (no
position is produced), and it is total exactly on declarations that have a
body, where it returns one past the closing brace. -/
theorem claim_C9 :
    (∀ d : FuncDeclPos, d.body = none → d.End = none) ∧
    (∀ (d : FuncDeclPos) (b : BlockStmtPos), d.body = some b →
      d.End = some (shiftPosition b.closeBrace.pos 1 0)) := by
  constructor
  · intro d hd
    simp [FuncDeclPos.End, hd]
  · intro d b hd
    simp [FuncDeclPos.End, hd, CloseBrace.End]

theorem claim_C9_witness :
    (FuncDeclPos.End ⟨⟨"a.hlb", 0, 1, 1⟩, none⟩ = none) ∧
    (FuncDeclPos.End
        ⟨⟨"a.hlb", 0, 1, 1⟩,
         some ⟨⟨"a.hlb", 10, 1, 11⟩, ⟨⟨"a.hlb", 20, 2, 1⟩⟩⟩⟩ =
      some ⟨"a.hlb", 21, 2, 2⟩) := by
  refine ⟨claim_C9.1 _ rfl, ?_⟩
  have h := claim_C9.2
    ⟨⟨"a.hlb", 0, 1, 1⟩, some ⟨⟨"a.hlb", 10, 1, 11⟩, ⟨⟨"a.hlb", 20, 2, 1⟩⟩⟩⟩
    ⟨⟨"a.hlb", 10, 1, 11⟩, ⟨⟨"a.hlb", 20, 2, 1⟩⟩⟩ rfl
  simpa [shiftPosition] using h

/-- C1 (amended): Generate's target validation. An unresolved name fails with
the "unknown target" error, which is distinct from ErrInvalidTarget; a
resolved binding that is not a declaration fails with ErrInvalidTarget, as
does a FuncDecl or AliasDecl whose (enclosing) return type is not fs; but a
declaration binding that is neither a FuncDecl nor an AliasDecl (an import)
falls through the dispatch and Generate returns the scratch default with no
error at all. -/
theorem claim_C1 (fuel : Nat) (call : CallStmt) (file : File) :
    (file.scope.lookup call.func = none →
      Generate fuel call file = .error (.unknownTarget call.func)) ∧
    (∀ obj, file.scope.lookup call.func = some obj → obj.kind ≠ .decl →
      Generate fuel call file = .error (.invalidTarget call.func)) ∧
    (∀ obj fd, file.scope.lookup call.func = some obj → obj.kind = .decl →
      obj.node = .funcDecl fd → fd.typ.principal ≠ .fs →
      Generate fuel call file = .error (.invalidTarget call.func)) ∧
    (∀ obj ident fn acall, file.scope.lookup call.func = some obj →
      obj.kind = .decl → obj.node = .aliasDecl ident fn acall →
      fn.typ.principal ≠ .fs →
      Generate fuel call file = .error (.invalidTarget call.func)) ∧
    (∀ obj, file.scope.lookup call.func = some obj → obj.kind = .decl →
      obj.node = .importDecl →
      Generate fuel call file = .ok (FS.scratch, ⟨[], [DebugEvent.atFile]⟩)) := by
  refine ⟨?_, ?_, ?_, ?_, ?_⟩
  · intro hlook
    unfold Generate
    rw [hlook]
  · intro obj hlook hkind
    unfold Generate
    rw [hlook]
    obtain ⟨kind, node, data⟩ := obj
    cases kind
    · simp at hkind
    · rfl
    · rfl
  · intro obj fd hlook hkind hnode hty
    unfold Generate
    rw [hlook]
    obtain ⟨kind, node, data⟩ := obj
    simp only at hkind hnode
    subst hkind
    subst hnode
    simp [hty]
  · intro obj ident fn acall hlook hkind hnode hty
    unfold Generate
    rw [hlook]
    obtain ⟨kind, node, data⟩ := obj
    simp only at hkind hnode
    subst hkind
    subst hnode
    simp [hty]
  · intro obj hlook hkind hnode
    unfold Generate
    rw [hlook]
    obtain ⟨kind, node, data⟩ := obj
    simp only at hkind hnode
    subst hkind
    subst hnode
    rfl

/-- C1 counterexample: Generate on a name that does not resolve fails with
the "unknown target" error, not with ErrInvalidTarget as the claim states. -/
theorem claim_C1_counterexample :
    Generate 5 (CallStmt.mk "foo" [] none none) ⟨Scope.empty⟩ =
      .error (.unknownTarget "foo") ∧
    Generate 5 (CallStmt.mk "foo" [] none none) ⟨Scope.empty⟩ ≠
      .error (.invalidTarget "foo") := by
  refine ⟨rfl, ?_⟩
  intro h
  rw [show Generate 5 (CallStmt.mk "foo" [] none none) ⟨Scope.empty⟩ =
        .error (.unknownTarget "foo") from rfl] at h
  simp at h

/-- A fixture file scope for the C1 witness: an import binding, a non-fs
function, and a parameter binding. -/
def c1File : File :=
  ⟨Scope.frame
    [("t1", { kind := .decl, node := .importDecl }),
     ("t2", { kind := .decl,
              node := .funcDecl { typ := ⟨PrimType.str, none⟩, name := "t2",
                                  params := [], body := some [] } }),
     ("t3", { kind := .field,
              node := .fieldNode { variadic := false,
                                   typ := ⟨PrimType.fs, none⟩, name := "t3" },
              data := .fs FS.scratch })]
    Scope.empty⟩

theorem claim_C1_witness :
    Generate 5 (CallStmt.mk "missing" [] none none) c1File =
      .error (.unknownTarget "missing") ∧
    Generate 5 (CallStmt.mk "t3" [] none none) c1File =
      .error (.invalidTarget "t3") ∧
    Generate 5 (CallStmt.mk "t2" [] none none) c1File =
      .error (.invalidTarget "t2") ∧
    Generate 5 (CallStmt.mk "t1" [] none none) c1File =
      .ok (FS.scratch, ⟨[], [DebugEvent.atFile]⟩) :=
  ⟨(claim_C1 5 (CallStmt.mk "missing" [] none none) c1File).1 rfl,
   (claim_C1 5 (CallStmt.mk "t3" [] none none) c1File).2.1 _ rfl (by decide),
   (claim_C1 5 (CallStmt.mk "t2" [] none none) c1File).2.2.1 _ _ rfl rfl rfl
     (by decide),
   (claim_C1 5 (CallStmt.mk "t1" [] none none) c1File).2.2.2.2 _ rfl rfl rfl⟩

/-- The local call with an includePatterns option used by claim C6. -/
def c6LocalCall : CallStmt :=
  CallStmt.mk "local" [.basicLit (.str "./src")]
    (some (.funcLit (.mk ⟨PrimType.option, some "local"⟩
      [.call (CallStmt.mk "includePatterns" [.basicLit (.str "*.go")] none none)])))
    none

/-- C6 (code bug at `local`): the with-option items of the local call are
built (the option expression evaluates to a non-empty item list) but the
emitted IR is Local(id) without them: the Go code constructs the
[]llb.LocalOption slice and then calls llb.Local(id) without passing it. The
fresh id and the locals entry are still produced. -/
theorem claim_C6 :
    emitWithOption 5 Scope.empty c6LocalCall c6LocalCall.withOpt
      ({} : EmitState) =
      .ok ([OptItem.localIncludePatterns ["*.go"]], {}, []) ∧
    emitFilesystemSourceStmt 5 Scope.empty c6LocalCall ({} : EmitState) =
      .ok (FS.local 0,
           { nextId := 1, locals := [(0, "./src")], debugLog := [] }, []) :=
  ⟨rfl, rfl⟩

/-- A bare `local(path)` call with no with-clause and no alias. -/
def localCall (path : String) : CallStmt :=
  CallStmt.mk "local" [.basicLit (.str path)] none none

/-- A fixture file for the C7 witness: an fs function whose body is a single
local call. -/
def c7File : File :=
  ⟨Scope.frame
    [("t", { kind := .decl,
             node := .funcDecl { typ := ⟨PrimType.fs, none⟩, name := "t",
                                 params := [],
                                 body := some [.call (localCall "./a")] } })]
    Scope.empty⟩

/-- C7: each `local(path)` evaluation allocates the current value of the
fresh-id counter as the opaque identifier, emits the Local IR source under
exactly that identifier, bumps the counter, and appends the id-to-path
binding to the locals table; and across one Generate invocation the
identifiers in the returned GenInfo locals table are pairwise distinct. -/
theorem claim_C7 :
    (∀ (n : Nat) (scope : Scope) (path : String) (s : EmitState),
       emitFilesystemSourceStmt (n + 2) scope (localCall path) s =
         .ok (FS.local s.nextId,
              { s with nextId := s.nextId + 1,
                       locals := s.locals ++ [(s.nextId, path)] },
              [])) ∧
    (∀ (fuel : Nat) (call : CallStmt) (file : File) (st : FS) (info : GenInfo),
       Generate fuel call file = .ok (st, info) →
       (info.locals.map Prod.fst).Nodup) :=
  ⟨fun _ _ _ _ => rfl, fun _ _ _ _ _ h => Generate_locals_nodup h⟩

theorem claim_C7_witness :
    (emitFilesystemSourceStmt 2 Scope.empty (localCall "./a")
        ({} : EmitState) =
      .ok (FS.local 0,
           { nextId := 1, locals := [(0, "./a")], debugLog := [] }, [])) ∧
    ((([((0 : Nat), "./a")] : List (Nat × String)).map Prod.fst).Nodup) :=
  ⟨claim_C7.1 0 Scope.empty "./a" {},
   claim_C7.2 8 (CallStmt.mk "t" [] none none) c7File (FS.local 0)
     ⟨[(0, "./a")],
      [.atFile, .atCall (localCall "./a") (.fs FS.scratch)]⟩ rfl⟩

/-- A one-statement option block calling `network` with a string literal. -/
def netOptionStmt (m : String) : List Stmt :=
  [.call (CallStmt.mk "network" [.basicLit (.str m)] none none)]

/-- A one-statement option block calling `security` with a string literal. -/
def securityOptionStmt (m : String) : List Stmt :=
  [.call (CallStmt.mk "security" [.basicLit (.str m)] none none)]

/-- A one-statement option block calling `cache` with string literals. -/
def cacheOptionStmt (id m : String) : List Stmt :=
  [.call (CallStmt.mk "cache" [.basicLit (.str id), .basicLit (.str m)] none none)]

/-- A one-statement option block calling `createdTime` with a string
literal. -/
def createdTimeStmt (v : String) : List Stmt :=
  [.call (CallStmt.mk "createdTime" [.basicLit (.str v)] none none)]

/-- C5 (amended): the enumerated option mappings are as the spec states
(network unset/host/node, security sandbox/insecure, cache
shared/private/locked) and createdTime parses an RFC 3339 timestamp,
returning an error on an invalid string; but an unknown enum string for
network, security or cache makes evaluation panic (a crash, goPanic), not
fail with a returned EvalError. -/
theorem claim_C5 (n : Nat) (scope : Scope) (s : EmitState) :
    (emitExecOptions (n + 2) scope "run" (netOptionStmt "unset") s =
       .ok ([OptItem.runNetwork .unset], s, [])) ∧
    (emitExecOptions (n + 2) scope "run" (netOptionStmt "host") s =
       .ok ([OptItem.runNetwork .host], s, [])) ∧
    (emitExecOptions (n + 2) scope "run" (netOptionStmt "node") s =
       .ok ([OptItem.runNetwork .none], s, [])) ∧
    (∀ m : String, m ≠ "unset" → m ≠ "host" → m ≠ "node" →
       emitExecOptions (n + 2) scope "run" (netOptionStmt m) s =
         .error (.goPanic "unknown network mode")) ∧
    (emitExecOptions (n + 2) scope "run" (securityOptionStmt "sandbox") s =
       .ok ([OptItem.runSecurity .sandbox], s, [])) ∧
    (emitExecOptions (n + 2) scope "run" (securityOptionStmt "insecure") s =
       .ok ([OptItem.runSecurity .insecure], s, [])) ∧
    (∀ m : String, m ≠ "sandbox" → m ≠ "insecure" →
       emitExecOptions (n + 2) scope "run" (securityOptionStmt m) s =
         .error (.goPanic "unknown network mode")) ∧
    (∀ id : String,
       emitMountOptions (n + 2) scope "mount" (cacheOptionStmt id "shared") s =
         .ok ([OptItem.mountCache id .shared], s, [])) ∧
    (∀ id : String,
       emitMountOptions (n + 2) scope "mount" (cacheOptionStmt id "private") s =
         .ok ([OptItem.mountCache id .privateMode], s, [])) ∧
    (∀ id : String,
       emitMountOptions (n + 2) scope "mount" (cacheOptionStmt id "locked") s =
         .ok ([OptItem.mountCache id .locked], s, [])) ∧
    (∀ id m : String, m ≠ "shared" → m ≠ "private" → m ≠ "locked" →
       emitMountOptions (n + 2) scope "mount" (cacheOptionStmt id m) s =
         .error (.goPanic "unknown sharing mode")) ∧
    (∀ (v : String) (t : Timestamp), RFC3339.parse v = some t →
       emitMkdirOptions (n + 2) scope "mkdir" (createdTimeStmt v) s =
         .ok ([OptItem.withCreatedTime t], s, [])) ∧
    (∀ v : String, RFC3339.parse v = none →
       emitMkdirOptions (n + 2) scope "mkdir" (createdTimeStmt v) s =
         .error (.timeParse v)) := by
  refine ⟨rfl, rfl, rfl, ?_, rfl, rfl, ?_, fun id => rfl, fun id => rfl,
          fun id => rfl, ?_, ?_, ?_⟩
  · intro m h1 h2 h3
    simp [netOptionStmt, emitExecOptions, emitWithOption, emitStringExpr,
      getArg, liftE, EmitM.pure, EmitM.bind, Bind.bind, EmitM.throw,
      CallStmt.func, CallStmt.args, CallStmt.withOpt, h1, h2, h3]
  · intro m h1 h2
    simp [securityOptionStmt, emitExecOptions, emitWithOption, emitStringExpr,
      getArg, liftE, EmitM.pure, EmitM.bind, Bind.bind, EmitM.throw,
      CallStmt.func, CallStmt.args, CallStmt.withOpt, h1, h2]
  · intro id m h1 h2 h3
    simp [cacheOptionStmt, emitMountOptions, emitStringExpr, getArg, liftE,
      EmitM.pure, EmitM.bind, Bind.bind, EmitM.throw,
      CallStmt.func, CallStmt.args, CallStmt.withOpt, h1, h2, h3]
  · intro v t hparse
    simp [createdTimeStmt, emitMkdirOptions, emitStringExpr, getArg, liftE,
      EmitM.pure, EmitM.bind, Bind.bind, parseCreatedTime, hparse,
      CallStmt.func, CallStmt.args, CallStmt.withOpt]
  · intro v hparse
    simp [createdTimeStmt, emitMkdirOptions, emitStringExpr, getArg, liftE,
      EmitM.pure, EmitM.bind, Bind.bind, parseCreatedTime, hparse,
      CallStmt.func, CallStmt.args, CallStmt.withOpt, EmitM.throw]

/-- C5 counterexample: an unknown network string does not fail with a
returned evaluation error; the evaluation crashes (Go panics with "unknown
network mode"). -/
theorem claim_C5_counterexample :
    emitExecOptions 5 Scope.empty "run" (netOptionStmt "foo") ({} : EmitState) =
      .error (.goPanic "unknown network mode") := rfl

theorem claim_C5_witness :
    (emitExecOptions 2 Scope.empty "run" (netOptionStmt "unset")
       ({} : EmitState) = .ok ([OptItem.runNetwork .unset], {}, [])) ∧
    (emitExecOptions 2 Scope.empty "run" (netOptionStmt "bogus")
       ({} : EmitState) = .error (.goPanic "unknown network mode")) ∧
    (emitMountOptions 2 Scope.empty "mount" (cacheOptionStmt "c" "bogus")
       ({} : EmitState) = .error (.goPanic "unknown sharing mode")) ∧
    (emitMkdirOptions 2 Scope.empty "mkdir"
       (createdTimeStmt "2020-02-29T23:59:59+05:30") ({} : EmitState) =
       .ok ([OptItem.withCreatedTime
              ⟨2020, 2, 29, 23, 59, 59, [], 330⟩], {}, [])) ∧
    (emitMkdirOptions 2 Scope.empty "mkdir" (createdTimeStmt "notatime")
       ({} : EmitState) = .error (.timeParse "notatime")) := by
  have h := claim_C5 0 Scope.empty ({} : EmitState)
  exact ⟨h.1,
         h.2.2.2.1 "bogus" (by decide) (by decide) (by decide),
         h.2.2.2.2.2.2.2.2.2.2.1 "c" "bogus" (by decide) (by decide) (by decide),
         h.2.2.2.2.2.2.2.2.2.2.2.1 "2020-02-29T23:59:59+05:30"
           ⟨2020, 2, 29, 23, 59, 59, [], 330⟩ (by rfl),
         h.2.2.2.2.2.2.2.2.2.2.2.2 "notatime" (by rfl)⟩

/-- A run chain call with one string-literal argument. -/
def runCall1 (cmd : String) : CallStmt :=
  CallStmt.mk "run" [.basicLit (.str cmd)] none none

/-- A run chain call with several string-literal arguments. -/
def runCallN (cmds : List String) : CallStmt :=
  CallStmt.mk "run" (cmds.map fun c => .basicLit (.str c)) none none

/-- Evaluating a list of string-literal argument expressions with mapM
yields the literal strings (the accumulator threads in reverse). -/
theorem mapM_strLit (m : Nat) (scope : Scope) :
    ∀ (cmds : List String) (acc : List String) (s : EmitState),
      List.mapM.loop (fun arg => emitStringExpr (m + 1) scope arg)
        (cmds.map fun c => Expr.basicLit (BasicLit.str c)) acc s =
        .ok (acc.reverse ++ cmds, s, []) := by
  intro cmds
  induction cmds with
  | nil =>
      intro acc s
      simp [List.mapM.loop, instMonadEmitM, EmitM.pure, Pure.pure]
  | cons c cs ihc =>
      intro acc s
      simp only [List.map_cons, List.mapM.loop]
      have hrec := ihc (c :: acc) s
      simp only [Bind.bind, instMonadEmitM, EmitM.bind]
      rw [show emitStringExpr (m + 1) scope (Expr.basicLit (BasicLit.str c)) s =
            .ok (c, s, []) from rfl]
      simp [hrec]

/-- C2 (amended): run command assembly. With exactly one argument the command
string is passed through as-is only when it splits into a single shell word;
a one-argument command of several words is wrapped as a shell-quoted
/bin/sh -c invocation. With two or more arguments the emitted command is the
shell-quoted join of the evaluated argument strings. -/
theorem claim_C2 (n : Nat) (scope : Scope) (s : EmitState) :
    (∀ (cmd : String) (parts : List String),
       Shellquote.Split cmd = .ok parts → parts.length = 1 →
       emitFilesystemChainStmt (n + 2) scope (runCall1 cmd) s =
         .ok (some fun st => (FS.execRoot st [OptItem.runShlex cmd], []),
              s, [])) ∧
    (∀ (cmd : String) (parts : List String),
       Shellquote.Split cmd = .ok parts → parts.length ≠ 1 →
       emitFilesystemChainStmt (n + 2) scope (runCall1 cmd) s =
         .ok (some fun st =>
                (FS.execRoot st
                  [OptItem.runShlex (Shellquote.Join ["/bin/sh", "-c", cmd])],
                 []),
              s, [])) ∧
    (∀ (a b : String) (rest : List String),
       emitFilesystemChainStmt (n + 2) scope (runCallN (a :: b :: rest)) s =
         .ok (some fun st =>
                (FS.execRoot st
                  [OptItem.runShlex (Shellquote.Join (a :: b :: rest))],
                 []),
              s, [])) := by
  refine ⟨?_, ?_, ?_⟩
  · intro cmd parts hsplit hlen
    simp [runCall1, emitFilesystemChainStmt, emitWithOption, emitStringExpr,
      getArg, liftE, EmitM.pure, EmitM.bind, Bind.bind, CallStmt.func,
      CallStmt.args, CallStmt.withOpt, Except.mapError, hsplit, hlen]
  · intro cmd parts hsplit hlen
    simp [runCall1, emitFilesystemChainStmt, emitWithOption, emitStringExpr,
      getArg, liftE, EmitM.pure, EmitM.bind, Bind.bind, CallStmt.func,
      CallStmt.args, CallStmt.withOpt, Except.mapError, hsplit, hlen]
  · intro a b rest
    have hloop : List.mapM.loop (fun arg => emitStringExpr (n + 1) scope arg)
        (Expr.basicLit (BasicLit.str a) :: Expr.basicLit (BasicLit.str b) ::
          rest.map fun c => Expr.basicLit (BasicLit.str c)) [] s =
        .ok (a :: b :: rest, s, []) := by
      have h := mapM_strLit n scope (a :: b :: rest) [] s
      simpa using h
    simp [runCallN, emitFilesystemChainStmt, emitWithOption, getArg, liftE,
      EmitM.pure, EmitM.bind, Bind.bind, CallStmt.func, CallStmt.args,
      CallStmt.withOpt, List.mapM, hloop]

/-- Projection used to compare run results concretely: the chain applied to
the scratch state. -/
def runChainResult (r : Except EmitErr (Option FsChainFn × EmitState × List AEvent)) :
    Option (FS × List AEvent) :=
  match r with
  | .ok (some f, _, _) => some (f FS.scratch)
  | _ => none

/-- C2 counterexample: run with the single argument "echo hi" does not emit
Shlex("echo hi"); the command splits into two words, so the emitted command
is the /bin/sh -c wrapping. -/
theorem claim_C2_counterexample :
    runChainResult (emitFilesystemChainStmt 5 Scope.empty
        (runCall1 "echo hi") ({} : EmitState)) =
      some (FS.execRoot FS.scratch
              [OptItem.runShlex "/bin/sh -c 'echo hi'"], []) ∧
    "/bin/sh -c 'echo hi'" ≠ "echo hi" :=
  ⟨rfl, by decide⟩

theorem claim_C2_witness :
    (emitFilesystemChainStmt 2 Scope.empty (runCall1 "true") ({} : EmitState) =
      .ok (some fun st => (FS.execRoot st [OptItem.runShlex "true"], []),
           {}, [])) ∧
    (emitFilesystemChainStmt 2 Scope.empty (runCall1 "echo hi")
        ({} : EmitState) =
      .ok (some fun st =>
             (FS.execRoot st
               [OptItem.runShlex (Shellquote.Join ["/bin/sh", "-c", "echo hi"])],
              []),
           {}, [])) ∧
    (emitFilesystemChainStmt 2 Scope.empty (runCallN ["a", "b c"])
        ({} : EmitState) =
      .ok (some fun st =>
             (FS.execRoot st [OptItem.runShlex (Shellquote.Join ["a", "b c"])],
              []),
           {}, [])) := by
  have h := claim_C2 0 Scope.empty ({} : EmitState)
  exact ⟨h.1 "true" ["true"] rfl rfl,
         h.2.1 "echo hi" ["echo", "hi"] rfl (by decide),
         h.2.2 "a" "b c" []⟩

/-- The string-block value statement used for claim C8. -/
def valueStmt (x : String) : Stmt :=
  .call (CallStmt.mk "value" [.basicLit (.str x)] none none)

/-- The string-block format statement used for claim C8. -/
def formatStmt (f a : String) : Stmt :=
  .call (CallStmt.mk "format" [.basicLit (.str f), .basicLit (.str a)] none none)

/-- C8 (amended): string blocks are source-only. A string block with exactly
one non-trivia statement calling a string source builtin evaluates to that
statement's string; as soon as a second non-debug statement is present and
the source statement succeeds, the unimplemented string-chain evaluator is
reached and evaluation crashes with the "unimplemented" panic. (A trailing
debug-family call does not reach the chain path.) -/
theorem claim_C8 (n : Nat) (scope : Scope) (s : EmitState) :
    (∀ x : String,
       emitBlock (n + 4) scope .str [valueStmt x] s =
         .ok (.str x,
              { s with debugLog := s.debugLog ++
                  [.atCall (CallStmt.mk "value" [.basicLit (.str x)] none none)
                     (.str "")] },
              [])) ∧
    (∀ f a : String,
       emitBlock (n + 4) scope .str [formatStmt f a] s =
         .ok (.str (sprintf f [a]),
              { s with debugLog := s.debugLog ++
                  [.atCall (CallStmt.mk "format"
                      [.basicLit (.str f), .basicLit (.str a)] none none)
                     (.str "")] },
              [])) ∧
    (∀ (c c2 : CallStmt) (rest : List Stmt) (str : String) (s1 : EmitState)
       (ev : List AEvent),
       (report.Builtins .str).contains c.func = true →
       isDebugName c.func = false →
       isDebugName c2.func = false →
       emitStringSourceStmt (n + 1) scope c
           { s with debugLog := s.debugLog ++ [.atCall c (.str "")] } =
         .ok (str, s1, ev) →
       emitBlock (n + 3) scope .str (.call c :: .call c2 :: rest) s =
         .error (.goPanic "unimplemented")) := by
  refine ⟨fun x => rfl, fun f a => rfl, ?_⟩
  intro c c2 rest str s1 ev hb hdbg hdbg2 hsrc
  simp only [isDebugName] at hdbg hdbg2
  simp at hb
  cases halias : c.aliasName <;>
    simp [emitBlock, emitBlockSkip, isDebugName, hdbg, hdbg2, hb, halias, blockIdentity,
      logDebug, emitSourceStmt, hsrc, emitBlockRest, emitChainStmt,
      emitStringChainStmt, EmitM.pure, EmitM.bind, Bind.bind, Pure.pure,
      instMonadEmitM, EmitM.throw, liftE, tellAlias, tellAliases]

/-- A string block whose second non-trivia statement is a debug-family call
(`breakpoint`) does not reach the string-chain path: it succeeds with the
source statement's string, refuting the original two-or-more-statements
claim. -/
theorem claim_C8_counterexample :
    emitBlock 4 Scope.empty .str
        [valueStmt "x", .call (CallStmt.mk "breakpoint" [] none none)]
        ({} : EmitState) =
      .ok (.str "x",
           { nextId := 0, locals := [],
             debugLog :=
               [.atCall (CallStmt.mk "value" [.basicLit (.str "x")] none none)
                  (.str ""),
                .atCall (CallStmt.mk "breakpoint" [] none none) (.str "x")] },
           []) := rfl

theorem claim_C8_witness :
    emitBlock 4 Scope.empty .str [valueStmt "x", valueStmt "y"]
        ({} : EmitState) =
      .error (.goPanic "unimplemented") :=
  (claim_C8 1 Scope.empty {}).2.2
    (CallStmt.mk "value" [.basicLit (.str "x")] none none)
    (CallStmt.mk "value" [.basicLit (.str "y")] none none)
    [] "x"
    { nextId := 0, locals := [],
      debugLog := [.atCall (CallStmt.mk "value" [.basicLit (.str "x")] none none)
                     (.str "")] }
    [] rfl rfl rfl rfl

/-- Monadic bind on EmitM is EmitM.bind (instance unfolding). -/
theorem bind_eq_emitBind {α β : Type} (m : EmitM α) (f : α → EmitM β) :
    (m >>= f) = EmitM.bind m f := rfl

/-- An EmitM bind yields ok only when both computations yield ok, and the
events concatenate. -/
theorem EmitM.bind_ok {α β : Type} {m : EmitM α} {f : α → EmitM β}
    {s : EmitState} {p : β × EmitState × List AEvent}
    (h : EmitM.bind m f s = .ok p) :
    ∃ a s1 ev1 b s2 ev2, m s = .ok (a, s1, ev1) ∧ f a s1 = .ok (b, s2, ev2) ∧
      p = (b, s2, ev1 ++ ev2) := by
  unfold EmitM.bind at h
  cases hm : m s with
  | error e => simp [hm] at h
  | ok q =>
      obtain ⟨a, s1, ev1⟩ := q
      simp only [hm] at h
      cases hf : f a s1 with
      | error e => simp [hf] at h
      | ok q2 =>
          obtain ⟨b, s2, ev2⟩ := q2
          simp only [hf, Except.ok.injEq] at h
          exact ⟨a, s1, ev1, b, s2, ev2, rfl, hf, h.symm⟩

/-- Running the leading debug-skip loop over a list of debug-family calls
succeeds with no source statement found and no events. -/
theorem emitBlockSkip_all_debug (v : Value) (l : List Stmt)
    (h : ∀ st ∈ l, ∃ c, st = Stmt.call c ∧ isDebugName c.func = true) :
    ∀ s : EmitState, ∃ s2, emitBlockSkip v l s = .ok (none, s2, []) := by
  induction l with
  | nil => intro s; exact ⟨s, rfl⟩
  | cons hd tl ih =>
      intro s
      obtain ⟨c, rfl, hdbg⟩ := h hd (by simp)
      have ih2 := ih fun st hst => h st (by simp [hst])
      obtain ⟨s2, hs2⟩ :=
        ih2 { s with debugLog := s.debugLog ++ [DebugEvent.atCall c v] }
      refine ⟨s2, ?_⟩
      simp [emitBlockSkip, hdbg, logDebug, bind_eq_emitBind, EmitM.bind, hs2]

/-- Shape of a successful leading debug-skip loop: with no source statement
found, every statement was a skipped debug call; with a source statement
found, every statement is that call, a skipped debug call, or belongs to the
returned remainder. -/
theorem emitBlockSkip_shape (v : Value) (l : List Stmt) :
    ∀ (s : EmitState) (r : Option (CallStmt × List Stmt)) (s2 : EmitState)
      (ev : List AEvent), emitBlockSkip v l s = .ok (r, s2, ev) →
      (r = none → ∀ st ∈ l, ∃ c, st = Stmt.call c ∧
         isDebugName c.func = true) ∧
      (∀ c rest, r = some (c, rest) → ∀ st ∈ l,
        st = Stmt.call c ∨ st ∈ rest ∨
          ∃ c2, st = Stmt.call c2 ∧ isDebugName c2.func = true) := by
  induction l with
  | nil =>
      intro s r s2 ev h
      constructor
      · intro _ st hst; cases hst
      · intro c rest _ st hst; cases hst
  | cons hd tl ih =>
      intro s r s2 ev h
      cases hd with
      | call c0 =>
          by_cases hdbg : isDebugName c0.func = true
          · simp only [emitBlockSkip] at h
            rw [if_pos hdbg] at h
            simp only [bind_eq_emitBind] at h
            obtain ⟨a1, s1, e1, b1, t1, f1, hm1, hf1, hp1⟩ := EmitM.bind_ok h
            have hr : r = b1 := congrArg (fun q => q.1) hp1
            have hrec := ih s1 b1 t1 f1 hf1
            constructor
            · intro hnone st hst
              rcases List.mem_cons.mp hst with hhd | htl
              · exact ⟨c0, hhd, hdbg⟩
              · exact hrec.1 (hr.symm.trans hnone) st htl
            · intro c rest hsome st hst
              rcases List.mem_cons.mp hst with hhd | htl
              · exact Or.inr (Or.inr ⟨c0, hhd, hdbg⟩)
              · exact hrec.2 c rest (hr.symm.trans hsome) st htl
          · simp only [emitBlockSkip] at h
            rw [if_neg hdbg] at h
            simp only [EmitM.pure, Pure.pure, instMonadEmitM,
              Except.ok.injEq] at h
            cases h
            constructor
            · intro hnone; exact absurd hnone (by simp)
            · intro c rest hsome st hst
              rw [Option.some.injEq, Prod.mk.injEq] at hsome
              rcases List.mem_cons.mp hst with hhd | htl
              · exact Or.inl (by rw [hhd, hsome.1])
              · exact Or.inr (Or.inl (hsome.2 ▸ htl))
      | newline => simp [emitBlockSkip, EmitM.throw] at h
      | doc => simp [emitBlockSkip, EmitM.throw] at h

/-- A trivia statement anywhere in the chain loop's statement list prevents
the loop from ever returning ok: the loop dereferences the nil CallStmt when
it reaches the trivia statement, and every earlier step either errors or
recurses on a tail still holding the trivia statement. -/
theorem emitBlockRest_trivia {t : Stmt} (ht : ∀ c, t ≠ Stmt.call c) :
    ∀ (rest : List Stmt), t ∈ rest → ∀ (fuel : Nat) (scope : Scope)
      (typ : PrimType) (v : Value) (s : EmitState)
      (p : Value × EmitState × List AEvent),
      emitBlockRest fuel scope typ v rest s ≠ .ok p := by
  intro rest
  induction rest with
  | nil => intro hmem; cases hmem
  | cons hd tl ih =>
      intro hmem fuel scope typ v s p hok
      cases fuel with
      | zero => simp [emitBlockRest, EmitM.throw] at hok
      | succ m =>
          cases hd with
          | call c =>
              have htl : t ∈ tl := by
                rcases List.mem_cons.mp hmem with hhd | h2
                · exact absurd hhd (ht c)
                · exact h2
              by_cases hdbg : isDebugName c.func = true
              · simp only [emitBlockRest] at hok
                rw [if_pos hdbg] at hok
                simp only [bind_eq_emitBind] at hok
                obtain ⟨a1, s1, e1, b1, t1, f1, hm1, hf1, -⟩ :=
                  EmitM.bind_ok hok
                exact ih htl m scope typ v s1 (b1, t1, f1) hf1
              · simp only [emitBlockRest] at hok
                rw [if_neg hdbg] at hok
                simp only [bind_eq_emitBind] at hok
                obtain ⟨a1, s1, e1, b1, t1, f1, hm1, hf1, -⟩ :=
                  EmitM.bind_ok hok
                obtain ⟨chain, s2, e2, b2, t2, f2, hm2, hf2, -⟩ :=
                  EmitM.bind_ok hf1
                obtain ⟨pr, s3, e3, b3, t3, f3, hm3, hf3, -⟩ :=
                  EmitM.bind_ok hf2
                obtain ⟨v2, evs⟩ := pr
                obtain ⟨a4, s4, e4, b4, t4, f4, hm4, hf4, -⟩ :=
                  EmitM.bind_ok hf3
                cases halias : c.aliasName with
                | none =>
                    simp only [halias] at hf4
                    obtain ⟨a5, s5, e5, b5, t5, f5, hm5, hf5, -⟩ :=
                      EmitM.bind_ok hf4
                    exact ih htl m scope typ v2 s5 (b5, t5, f5) hf5
                | some al =>
                    simp only [halias] at hf4
                    obtain ⟨a5, s5, e5, b5, t5, f5, hm5, hf5, -⟩ :=
                      EmitM.bind_ok hf4
                    exact ih htl m scope typ v2 s5 (b5, t5, f5) hf5
          | newline => simp [emitBlockRest, EmitM.throw] at hok
          | doc => simp [emitBlockRest, EmitM.throw] at hok

/-- C10 (implicit precondition of emitBlock): an empty statement list crashes
with an index-out-of-range panic; a list of nothing but debug-family calls
reuses statement zero as the source statement, whose name resolves neither as
a builtin nor in scope, so evaluation crashes with a panic carrying that
name; and a statement list holding a trivia statement can never evaluate to
ok — so Generate is total only when every evaluated block has a non-debug
call statement and its statements are pre-filtered of trivia. -/
theorem claim_C10 :
    (∀ (n : Nat) (scope : Scope) (typ : PrimType) (s : EmitState),
       emitBlock (n + 1) scope typ [] s =
         .error (.goPanic "index out of range")) ∧
    (∀ (n : Nat) (scope : Scope) (typ : PrimType) (c : CallStmt)
       (rest : List Stmt) (s : EmitState),
       (∀ st ∈ (Stmt.call c :: rest), ∃ c2, st = Stmt.call c2 ∧
          isDebugName c2.func = true) →
       (report.Builtins typ).contains c.func = false →
       scope.lookup c.func = none →
       emitBlock (n + 2) scope typ (Stmt.call c :: rest) s =
         .error (.goPanic c.func)) ∧
    (∀ (fuel : Nat) (scope : Scope) (typ : PrimType) (stmts : List Stmt)
       (s : EmitState) (t : Stmt), t ∈ stmts → (∀ c, t ≠ Stmt.call c) →
       ∀ p, emitBlock fuel scope typ stmts s ≠ .ok p) := by
  refine ⟨fun n scope typ s => rfl, ?_, ?_⟩
  · intro n scope typ c rest s hall hcon hlook
    obtain ⟨s2, hs2⟩ :=
      emitBlockSkip_all_debug (blockIdentity typ) (Stmt.call c :: rest) hall s
    simp at hcon
    simp [emitBlock, hs2, bind_eq_emitBind, EmitM.bind, sourceStmtAtZero,
      liftE, logDebug, emitSourceStmt, hcon, hlook, EmitM.throw, EmitM.pure]
  · intro fuel scope typ stmts s t hmem ht p hok
    cases fuel with
    | zero => simp [emitBlock, EmitM.throw] at hok
    | succ m =>
        simp only [emitBlock, bind_eq_emitBind] at hok
        obtain ⟨r, s1, e1, b1, t1, f1, hm1, hf1, -⟩ := EmitM.bind_ok hok
        have hshape :=
          emitBlockSkip_shape (blockIdentity typ) stmts s r s1 e1 hm1
        cases r with
        | none =>
            obtain ⟨c, hc, -⟩ := hshape.1 rfl t hmem
            exact ht c hc
        | some pr =>
            obtain ⟨c0, rest0⟩ := pr
            have hmem0 : t ∈ rest0 := by
              rcases hshape.2 c0 rest0 rfl t hmem with hc | h2 | ⟨c2, hc2, -⟩
              · exact absurd hc (ht c0)
              · exact h2
              · exact absurd hc2 (ht c2)
            obtain ⟨a2, s2, e2, b2, t2, f2, hm2, hf2, -⟩ := EmitM.bind_ok hf1
            have ha2 : a2 = (c0, rest0) := by
              simp only [EmitM.pure, Except.ok.injEq, Prod.mk.injEq] at hm2
              exact hm2.1.symm
            subst ha2
            obtain ⟨a3, s3, e3, b3, t3, f3, hm3, hf3, -⟩ := EmitM.bind_ok hf2
            obtain ⟨v1, s4, e4, b4, t4, f4, hm4, hf4, -⟩ := EmitM.bind_ok hf3
            cases halias : (c0, rest0).1.aliasName with
            | none =>
                simp only [halias] at hf4
                obtain ⟨a5, s5, e5, b5, t5, f5, hm5, hf5, -⟩ :=
                  EmitM.bind_ok hf4
                exact emitBlockRest_trivia ht rest0 hmem0 m scope typ v1 s5
                  (b5, t5, f5) hf5
            | some al =>
                simp only [halias] at hf4
                obtain ⟨a5, s5, e5, b5, t5, f5, hm5, hf5, -⟩ :=
                  EmitM.bind_ok hf4
                exact emitBlockRest_trivia ht rest0 hmem0 m scope typ v1 s5
                  (b5, t5, f5) hf5

theorem claim_C10_witness :
    emitBlock 1 Scope.empty .fs [] ({} : EmitState) =
      .error (.goPanic "index out of range") ∧
    emitBlock 2 Scope.empty .fs
        [Stmt.call (CallStmt.mk "breakpoint" [] none none)] ({} : EmitState) =
      .error (.goPanic "breakpoint") ∧
    emitBlock 3 Scope.empty .fs [Stmt.newline] ({} : EmitState) ≠
      .ok (.nilV, {}, []) :=
  ⟨claim_C10.1 0 Scope.empty .fs {},
   claim_C10.2.1 0 Scope.empty .fs (CallStmt.mk "breakpoint" [] none none) []
     {} (by intro st hst; rw [List.mem_singleton] at hst; exact ⟨_, hst, rfl⟩)
     rfl rfl,
   claim_C10.2.2 3 Scope.empty .fs [Stmt.newline] {} Stmt.newline (by simp)
     (fun c h => nomatch h) (.nilV, {}, [])⟩

/-- Written from the spec's words for the C3 refinement comparison: invoke
the debug hook on each leading debug-family call, with the accumulator still
at the block identity. -/
def specLeadHooks (v : Value) : List CallStmt → EmitM Unit
  | [] => EmitM.pure ()
  | c :: cs => do
      logDebug (.atCall c v)
      specLeadHooks v cs

/-- Written from the spec's words for the C3 refinement comparison: the
spec's block evaluation steps. The accumulator is initialized to the
identity for the block type; the leading debug statements are hooked and
skipped; the first non-debug statement is evaluated as a source statement
whose value replaces the accumulator wholesale (firing the alias callback if
the statement is aliased); the remaining statements are evaluated as the
chain loop over the current accumulator. -/
def specBlockEval (fuel : Nat) (scope : Scope) (typ : PrimType)
    (lead : List CallStmt) (src : CallStmt) (rest : List Stmt) :
    EmitM Value := do
  let v := blockIdentity typ
  specLeadHooks v lead
  logDebug (.atCall src v)
  let v1 ← emitSourceStmt fuel scope typ src
  _ ← match src.aliasName with
      | some _ => tellAlias src v1
      | none => EmitM.pure ()
  emitBlockRest fuel scope typ v1 rest

/-- Running the spec-side leading hooks only extends the debug log. -/
theorem specLeadHooks_run (v : Value) (lead : List CallStmt) :
    ∀ s : EmitState, specLeadHooks v lead s =
      .ok ((), { s with debugLog := s.debugLog ++
                   lead.map fun d => DebugEvent.atCall d v }, []) := by
  induction lead with
  | nil => intro s; simp [specLeadHooks, EmitM.pure, Pure.pure]
  | cons d ds ih =>
      intro s
      simp [specLeadHooks, logDebug, bind_eq_emitBind, EmitM.bind, ih,
        List.append_assoc]

/-- The code-side leading skip loop over debug calls followed by a non-debug
call finds exactly that call, extending the debug log by the skipped
hooks. -/
theorem emitBlockSkip_lead (v : Value) (src : CallStmt)
    (hsrc : isDebugName src.func = false) (rest : List Stmt) :
    ∀ lead : List CallStmt, (∀ d ∈ lead, isDebugName d.func = true) →
      ∀ s : EmitState,
        emitBlockSkip v (lead.map Stmt.call ++ Stmt.call src :: rest) s =
          .ok (some (src, rest),
               { s with debugLog := s.debugLog ++
                    lead.map fun d => DebugEvent.atCall d v }, []) := by
  intro lead
  induction lead with
  | nil => intro _ s; simp [emitBlockSkip, hsrc, EmitM.pure, Pure.pure]
  | cons d ds ih =>
      intro hall s
      have hd := hall d (by simp)
      have ih2 := ih fun x hx => hall x (by simp [hx])
      simp [emitBlockSkip, hd, logDebug, bind_eq_emitBind, EmitM.bind, ih2,
        List.append_assoc]

/-- Destructuring and rebuilding an EmitM result is the identity. -/
theorem except_match_id {α : Type} (x : Except EmitErr (α × EmitState × List AEvent)) :
    (match x with
     | .error e => Except.error e
     | .ok (b, s2, ev2) => Except.ok (b, s2, ev2)) = x := by
  cases x with
  | error e => rfl
  | ok p => obtain ⟨b, s2, ev⟩ := p; rfl

/-- C3: block evaluation follows the spec's accumulator pipeline. For a
block whose statements are a run of leading debug-family calls, then a
non-debug call, then arbitrary remaining statements, the evaluator computes
exactly the spec's steps: identity initialization, leading hooks, wholesale
replacement of the accumulator by the source statement's value, then the
chain loop over the remaining statements; and the chain loop on an exhausted
statement list returns the accumulator as the block's result. -/
theorem claim_C3 (fuel : Nat) (scope : Scope) (typ : PrimType) :
    (∀ (lead : List CallStmt) (src : CallStmt) (rest : List Stmt)
       (s : EmitState),
       (∀ d ∈ lead, isDebugName d.func = true) →
       isDebugName src.func = false →
       emitBlock (fuel + 1) scope typ
           (lead.map Stmt.call ++ Stmt.call src :: rest) s =
         specBlockEval fuel scope typ lead src rest s) ∧
    (∀ (v : Value) (s : EmitState),
       emitBlockRest (fuel + 1) scope typ v [] s = .ok (v, s, [])) := by
  refine ⟨?_, fun v s => rfl⟩
  intro lead src rest s hlead hsrc
  have hskip := emitBlockSkip_lead (blockIdentity typ) src hsrc rest lead
    hlead s
  have hhooks := specLeadHooks_run (blockIdentity typ) lead s
  simp [emitBlock, specBlockEval, bind_eq_emitBind, EmitM.bind, hskip,
    hhooks, EmitM.pure, Pure.pure, logDebug, except_match_id]

theorem claim_C3_witness :
    (emitBlock 3 Scope.empty .str
        [Stmt.call (CallStmt.mk "breakpoint" [] none none),
         Stmt.call (CallStmt.mk "value" [.basicLit (.str "x")] none none)]
        ({} : EmitState) =
      specBlockEval 2 Scope.empty .str
        [CallStmt.mk "breakpoint" [] none none]
        (CallStmt.mk "value" [.basicLit (.str "x")] none none) []
        ({} : EmitState)) ∧
    (emitBlockRest 3 Scope.empty .str (.str "x") [] ({} : EmitState) =
      .ok (.str "x", {}, [])) :=
  ⟨(claim_C3 2 Scope.empty .str).1
     [CallStmt.mk "breakpoint" [] none none]
     (CallStmt.mk "value" [.basicLit (.str "x")] none none) [] {}
     (by intro d hd; rw [List.mem_singleton] at hd; subst hd; rfl) rfl,
   (claim_C3 2 Scope.empty .str).2 (.str "x") {}⟩

/-- A function-literal fs block holding a single scratch call (a mount input
that needs no scope). -/
def scratchLit : Expr :=
  .funcLit (FuncLit.mk ⟨PrimType.fs, none⟩
    [.call (CallStmt.mk "scratch" [] none none)])

/-- An aliased mount statement with a scratch input and a literal target. -/
def c4Mount (t a : String) : CallStmt :=
  CallStmt.mk "mount" [scratchLit, .basicLit (.str t)] none (some a)

/-- A run call with the single command "x" and an inline with-block of two
aliased mounts. -/
def c4Run (t1 a1 t2 a2 : String) : CallStmt :=
  CallStmt.mk "run" [.basicLit (.str "x")]
    (some (.funcLit (FuncLit.mk ⟨PrimType.option, some "run"⟩
      [.call (c4Mount t1 a1), .call (c4Mount t2 a2)]))) none

/-- The exec options the c4Run call emits: the two mounts then the command. -/
def c4Opts (t1 t2 : String) : List OptItem :=
  [.runMount t1 FS.scratch [], .runMount t2 FS.scratch [], .runShlex "x"]

/-- The state option the evaluator returns for c4Run: exec the state and
fire, for each scanned target in order, the callback of the last
mount statement bearing that target (the Go map lookup), with the post-exec
mount vertex. -/
def c4Closure (t1 a1 t2 a2 : String) : FsChainFn := fun st =>
  let evs := [t1, t2].map fun t =>
    (((([(t2, c4Mount t2 a2), (t1, c4Mount t1 a1)].find?
          fun p => p.1 = t).map Prod.snd).getD (CallStmt.mk "" [] none none)),
     Value.fs (FS.execMount st (c4Opts t1 t2) t))
  (FS.execRoot st (c4Opts t1 t2), evs)

/-- The debug hook fired by evaluating one scratch mount input. -/
def c4ScratchHook : DebugEvent :=
  .atCall (CallStmt.mk "scratch" [] none none) (.fs FS.scratch)

/-- C4 (amended): alias-callback behavior. The run chain evaluates to the
c4Closure state option with no block-level events; under distinct mount
targets that closure fires each mount alias exactly once, with the CallStmt
of that mount and the fs-typed post-exec mount filesystem. At the block
level, an aliased source statement fires the callback exactly once, right
after the statement, with its CallStmt and the value the statement produced.
(Without the distinct-target hypothesis the exactly-once guarantee fails;
see the counterexample.) -/
theorem claim_C4 (n : Nat) (scope : Scope) :
    (∀ (t1 a1 t2 a2 : String) (s : EmitState),
       emitFilesystemChainStmt (n + 12) scope (c4Run t1 a1 t2 a2) s =
         .ok (some (c4Closure t1 a1 t2 a2),
              { s with debugLog :=
                  s.debugLog ++ [c4ScratchHook] ++ [c4ScratchHook] },
              [])) ∧
    (∀ (t1 a1 t2 a2 : String) (st : FS), t1 ≠ t2 →
       c4Closure t1 a1 t2 a2 st =
         (FS.execRoot st (c4Opts t1 t2),
          [(c4Mount t1 a1, Value.fs (FS.execMount st (c4Opts t1 t2) t1)),
           (c4Mount t2 a2, Value.fs (FS.execMount st (c4Opts t1 t2) t2))])) ∧
    (∀ (m : Nat) (scope2 : Scope) (typ : PrimType) (c : CallStmt) (a : String)
       (s s1 : EmitState) (v1 : Value) (ev : List AEvent),
       isDebugName c.func = false → c.aliasName = some a →
       emitSourceStmt (m + 1) scope2 typ c
           { s with debugLog :=
               s.debugLog ++ [.atCall c (blockIdentity typ)] } =
         .ok (v1, s1, ev) →
       emitBlock (m + 2) scope2 typ [.call c] s =
         .ok (v1, s1, ev ++ [(c, v1)])) := by
  refine ⟨fun t1 a1 t2 a2 s => rfl, ?_, ?_⟩
  · intro t1 a1 t2 a2 st hne
    simp [c4Closure, c4Opts, List.find?, hne, Ne.symm hne]
  · intro m scope2 typ c a s s1 v1 ev hdbg halias hsrc
    simp only [isDebugName] at hdbg
    simp only [blockIdentity] at hsrc
    simp [emitBlock, emitBlockSkip, isDebugName, hdbg, halias, blockIdentity,
      logDebug, hsrc, emitBlockRest, EmitM.pure, EmitM.bind, Bind.bind,
      Pure.pure, instMonadEmitM, tellAlias, liftE, except_match_id]

/-- C4 counterexample: two aliased mounts sharing one target. The scan keys
the callbacks by target, so the later mount's callback fires twice and the
earlier mount's callback never fires — the exactly-once guarantee of the
original claim fails for duplicate targets. -/
theorem claim_C4_counterexample :
    runChainResult (emitFilesystemChainStmt 12 Scope.empty
        (c4Run "/m" "m1" "/m" "m2") ({} : EmitState)) =
      some (FS.execRoot FS.scratch (c4Opts "/m" "/m"),
            [(c4Mount "/m" "m2",
              Value.fs (FS.execMount FS.scratch (c4Opts "/m" "/m") "/m")),
             (c4Mount "/m" "m2",
              Value.fs (FS.execMount FS.scratch (c4Opts "/m" "/m") "/m"))]) ∧
    (c4Mount "/m" "m2").aliasName = some "m2" ∧
    (c4Mount "/m" "m1").aliasName = some "m1" ∧
    ("m1" : String) ≠ "m2" :=
  ⟨rfl, rfl, rfl, by decide⟩

theorem claim_C4_witness :
    (emitFilesystemChainStmt 12 Scope.empty (c4Run "/a" "p" "/b" "q")
        ({} : EmitState) =
      .ok (some (c4Closure "/a" "p" "/b" "q"),
           { nextId := 0, locals := [],
             debugLog := [c4ScratchHook, c4ScratchHook] }, [])) ∧
    (c4Closure "/a" "p" "/b" "q" FS.scratch =
      (FS.execRoot FS.scratch (c4Opts "/a" "/b"),
       [(c4Mount "/a" "p",
         Value.fs (FS.execMount FS.scratch (c4Opts "/a" "/b") "/a")),
        (c4Mount "/b" "q",
         Value.fs (FS.execMount FS.scratch (c4Opts "/a" "/b") "/b"))])) ∧
    (emitBlock 4 Scope.empty .fs
        [.call (CallStmt.mk "scratch" [] none (some "al"))]
        ({} : EmitState) =
      .ok (.fs FS.scratch,
           { nextId := 0, locals := [],
             debugLog := [.atCall (CallStmt.mk "scratch" [] none (some "al"))
                            (.fs FS.scratch)] },
           [(CallStmt.mk "scratch" [] none (some "al"), .fs FS.scratch)])) :=
  ⟨(claim_C4 0 Scope.empty).1 "/a" "p" "/b" "q" {},
   (claim_C4 0 Scope.empty).2.1 "/a" "p" "/b" "q" FS.scratch (by decide),
   (claim_C4 0 Scope.empty).2.2 2 Scope.empty .fs
     (CallStmt.mk "scratch" [] none (some "al")) "al" {}
     { nextId := 0, locals := [],
       debugLog := [.atCall (CallStmt.mk "scratch" [] none (some "al"))
                      (.fs FS.scratch)] }
     (.fs FS.scratch) [] rfl rfl rfl⟩

end Hlb
